import Mathlib

/-!
Shallow embedding of the spectrum-analyzer core of
src/common/docker/audio-visualizer/visualizer.py.

The embedding follows the source line by line for the half-octave band
mode with the default configuration (SAMPLE_RATE = 44100, FFT_SIZE = 4096,
NUM_BANDS = 19).  IEEE-754 doubles are idealised as real numbers; numpy
arrays are lists of reals (or index functions where the source treats them
as vectors of fixed length).  The per-chunk entry point analyze_pcm is
modelled as a state transition on the pair (prev_db, audio_ring) plus the
emitted text frame.
-/

/-- FFT window length (visualizer.py line 37: FFT_SIZE = 4096). -/
def FFT_SIZE : ℕ := 4096

/-- Default sample rate (line 31: SAMPLE_RATE env default 44100). -/
noncomputable def SAMPLE_RATE : ℝ := 44100

/-- Display floor in dBFS (line 72: NOISE_FLOOR = -72.0). -/
noncomputable def NOISE_FLOOR : ℝ := -72

/-- Attack smoothing coefficient (line 80: ATTACK_COEFF = 0.4). -/
noncomputable def ATTACK_COEFF : ℝ := 0.4

/-- Decay smoothing coefficient (line 81: DECAY_COEFF = 0.85). -/
noncomputable def DECAY_COEFF : ℝ := 0.85

/-- Center frequencies for the given band mode (lines 46-65). -/
noncomputable def generate_band_centers (mode : String) : List ℝ :=
  if mode = "third-octave" then
    [20, 25, 31.5, 40, 50, 63, 80, 100, 125, 160,
     200, 250, 315, 400, 500, 630, 800, 1000, 1250, 1600,
     2000, 2500, 3150, 4000, 5000, 6300, 8000, 10000, 12500, 16000, 20000]
  else
    [20, 28, 40, 57, 80, 113, 160, 226, 320, 453,
     640, 894, 1250, 1768, 2500, 3536, 5000, 7071, 10000]

/-- Band centers in the default half-octave mode (line 68). -/
noncomputable def BAND_CENTERS : List ℝ := generate_band_centers "half-octave"

/-- Number of bands: len(BAND_CENTERS) = 19 in half-octave mode (line 69). -/
def NUM_BANDS : ℕ := 19

/-- Frequency of FFT bin k: np.fft.rfftfreq(FFT_SIZE, 1/sr)[k] = k*sr/4096. -/
noncomputable def rfreq (sr : ℝ) (k : ℕ) : ℝ := k * sr / 4096

/-- The one-sided FFT frequency grid, bins 0 .. 2048 (line 94). -/
noncomputable def freqBins (sr : ℝ) : List ℝ := (List.range 2049).map (rfreq sr)

/-- np.searchsorted with side left: the number of elements strictly below v,
which for a sorted list is the index of the first element that is ≥ v. -/
noncomputable def searchsorted (l : List ℝ) (v : ℝ) : ℕ :=
  l.countP (fun x => decide (x < v))

/-- Band edge factor (lines 95-98): 2^(1/6) for third-octave, 2^(1/4) else. -/
noncomputable def edgeFactor (mode : String) : ℝ :=
  if mode = "third-octave" then (2 : ℝ) ^ ((1 : ℝ) / 6) else (2 : ℝ) ^ ((1 : ℝ) / 4)

/-- compute_band_bins (lines 88-107): for each center, the pair
(lo, max hi (lo+1)) of searchsorted indices of center/edgeFactor and
center*edgeFactor in the bin-frequency grid. -/
noncomputable def compute_band_bins (sr : ℝ) (mode : String) : List (ℕ × ℕ) :=
  (generate_band_centers mode).map (fun center =>
    let lo := searchsorted (freqBins sr) (center / edgeFactor mode)
    let hi := searchsorted (freqBins sr) (center * edgeFactor mode)
    (lo, max hi (lo + 1)))

/-- Band bin table for the default configuration (line 110). -/
noncomputable def BAND_BINS : List (ℕ × ℕ) := compute_band_bins SAMPLE_RATE "half-octave"

/-- np.hanning(4096): sample j of the symmetric Hann window,
0.5 - 0.5*cos(2*pi*j/(4096-1)) (line 111). -/
noncomputable def hann (j : ℕ) : ℝ := 0.5 - 0.5 * Real.cos (2 * Real.pi * j / 4095)

/-- Sum of the squared window samples (denominator of np.mean(WINDOW**2)). -/
noncomputable def sumHannSq : ℝ := ∑ j ∈ Finset.range 4096, hann j ^ 2

/-- WINDOW_POWER_CORR = 1.0 / np.mean(WINDOW ** 2) = 4096 / sumHannSq (line 113). -/
noncomputable def WINDOW_POWER_CORR : ℝ := 4096 / sumHannSq

/-- The engine's mutable module state: prev_db (line 84) and audio_ring (line 85). -/
structure VizState where
  prev_db : List ℝ
  audio_ring : List ℝ

/-- Sum of squares of a chunk (numerator of np.mean(new_samples ** 2)). -/
noncomputable def sumSq (c : List ℝ) : ℝ := (c.map (fun x => x ^ 2)).sum

/-- rms_new = np.sqrt(np.mean(new_samples ** 2)) (line 130).  The model is
only meaningful for nonempty chunks (numpy yields NaN on an empty mean). -/
noncomputable def rms (c : List ℝ) : ℝ := Real.sqrt (sumSq c / c.length)

/-- Ring-buffer update (lines 136-142): full replacement by the last
FFT_SIZE samples when the chunk is at least FFT_SIZE long, otherwise
np.roll left by n with the n new samples written into the tail. -/
def ring_update (ring : List ℝ) (c : List ℝ) : List ℝ :=
  if 4096 ≤ c.length then c.drop (c.length - 4096) else ring.drop c.length ++ c

/-- Sample j of (audio_ring / 32768.0) * WINDOW (lines 145-148). -/
noncomputable def windowed (ring : List ℝ) (j : ℕ) : ℝ :=
  ring.getD j 0 / 32768 * hann j

/-- Bin k of np.fft.rfft(windowed): sum over j of windowed_j * e^(-2*pi*i*j*k/4096). -/
noncomputable def rfft (ring : List ℝ) (k : ℕ) : ℂ :=
  ∑ j ∈ Finset.range 4096,
    (windowed ring j : ℂ) *
      Complex.exp (((-(2 * Real.pi * j * k / 4096) : ℝ) : ℂ) * Complex.I)

/-- Corrected power spectrum bin k (lines 151-157):
abs(rfft)^2 * WINDOW_POWER_CORR / FFT_SIZE^2. -/
noncomputable def spectrum' (ring : List ℝ) (k : ℕ) : ℝ :=
  Complex.abs (rfft ring k) ^ 2 * WINDOW_POWER_CORR / 4096 ^ 2

/-- Prefix sums of the power spectrum: csum ring m models
np.concatenate(([0.0], np.cumsum(spectrum)))[m] for m ≤ 2049 (line 164). -/
noncomputable def csum (ring : List ℝ) (m : ℕ) : ℝ :=
  ∑ k ∈ Finset.range m, spectrum' ring k

/-- Band power of band b (lines 159-165): cumsum difference over the band's
bin range, with both endpoints clipped to the spectrum length 2049, and
clamped below by 0. -/
noncomputable def band_power (bins : List (ℕ × ℕ)) (ring : List ℝ) (b : ℕ) : ℝ :=
  max (csum ring (min (bins.getD b (0, 0)).2 2049) -
       csum ring (min (bins.getD b (0, 0)).1 2049)) 0

/-- total_power = np.sum(band_power) (line 169). -/
noncomputable def total_power (bins : List (ℕ × ℕ)) (ring : List ℝ) : ℝ :=
  ∑ b ∈ Finset.range bins.length, band_power bins ring b

/-- Volume-independent normalization (lines 170-173): divide by the total
power when it exceeds 1e-30, otherwise leave the band powers unchanged. -/
noncomputable def band_power_norm (bins : List (ℕ × ℕ)) (ring : List ℝ) (b : ℕ) : ℝ :=
  if 1e-30 < total_power bins ring then band_power bins ring b / total_power bins ring
  else band_power bins ring b

/-- Raw band level in dB (lines 178-183): 10*log10 of the normalized power
clamped to NOISE_FLOOR where positive, NOISE_FLOOR otherwise. -/
noncomputable def band_db (bins : List (ℕ × ℕ)) (ring : List ℝ) (b : ℕ) : ℝ :=
  if 0 < band_power_norm bins ring b then
    max (10 * Real.logb 10 (band_power_norm bins ring b)) NOISE_FLOOR
  else NOISE_FLOOR

/-- Asymmetric smoothing of one band (lines 185-188): move prev toward the
raw level by 1-ATTACK_COEFF when rising, by 1-DECAY_COEFF otherwise. -/
noncomputable def smooth (p d : ℝ) : ℝ :=
  p + (d - p) * (if p < d then 1 - ATTACK_COEFF else 1 - DECAY_COEFF)

/-- State transition of analyze_pcm (lines 120-192).  The silence gate
(lines 130-134) fills prev_db with NOISE_FLOOR and zeroes the ring buffer;
otherwise the ring is updated, the band levels are computed, and prev_db
is smoothed toward them. -/
noncomputable def analyze_state (s : VizState) (c : List ℝ) : VizState :=
  if rms c < 1 then
    { prev_db := s.prev_db.map (fun _ => NOISE_FLOOR),
      audio_ring := s.audio_ring.map (fun _ => 0) }
  else
    let ring1 := ring_update s.audio_ring c
    { prev_db := List.zipWith smooth s.prev_db
        ((List.range NUM_BANDS).map (band_db BAND_BINS ring1)),
      audio_ring := ring1 }

/-- Round to the nearest integer, ties to even: the rounding used by
Python round(v, 1) and np.round(v, 1) after scaling by 10. -/
noncomputable def roundHalfEven (x : ℝ) : ℤ :=
  if x - ⌊x⌋ < 1 / 2 then ⌊x⌋
  else if 1 / 2 < x - ⌊x⌋ then ⌊x⌋ + 1
  else if Even ⌊x⌋ then ⌊x⌋ else ⌊x⌋ + 1

/-- Decimal rendering of z tenths with exactly one digit after the point,
e.g. decimalStr (-720) = "-72.0". -/
def decimalStr (z : ℤ) : String :=
  (if z < 0 then "-" else "") ++ toString (z.natAbs / 10) ++ "." ++ toString (z.natAbs % 10)

/-- Text of one output field: str(round(v, 1)) (lines 134 and 190-192). -/
noncomputable def fmt (v : ℝ) : String := decimalStr (roundHalfEven (10 * v))

/-- analyze_pcm as a function from state and chunk to the new state and the
emitted frame; in both branches the frame is the ";"-join of the formatted
entries of the new prev_db. -/
noncomputable def analyze_pcm (s : VizState) (c : List ℝ) : VizState × String :=
  (analyze_state s c, String.intercalate ";" (((analyze_state s c).prev_db).map fmt))

/-- Initial module state (lines 84-85): prev_db full of NOISE_FLOOR,
audio_ring all zeros. -/
noncomputable def initState : VizState :=
  { prev_db := List.replicate NUM_BANDS NOISE_FLOOR,
    audio_ring := List.replicate FFT_SIZE 0 }

/-- State after n ticks that all deliver the same chunk c. -/
noncomputable def runChunk (c : List ℝ) : ℕ → VizState
  | 0 => initState
  | n + 1 => analyze_state (runChunk c n) c

/-- State after feeding a list of chunks from the initial state. -/
noncomputable def runStates (chunks : List (List ℝ)) : VizState :=
  chunks.foldl analyze_state initState

/-- Frames emitted while feeding a list of chunks from a given state. -/
noncomputable def runFrames : List (List ℝ) → VizState → List String
  | [], _ => []
  | c :: rest, s => (analyze_pcm s c).2 :: runFrames rest (analyze_state s c)

/-- Peak (maximum) band level of a state's smoothing array. -/
noncomputable def peakLevel (s : VizState) : ℝ := s.prev_db.foldr max NOISE_FLOOR

/-- One chunk of 4096 samples of the sine wave a*sin(2*pi*f*t/SAMPLE_RATE)
sampled at f = SAMPLE_RATE/4, i.e. sample j is a*sin(pi*j/2). -/
noncomputable def sineChunk (a : ℝ) : List ℝ :=
  List.ofFn (fun j : Fin 4096 => a * Real.sin (Real.pi * j / 2))

/-- One chunk of 4096 samples of the constant (pure DC) signal 10000. -/
noncomputable def dcChunk : List ℝ := List.replicate 4096 10000

/-- The discrete Fourier transform of the Hann window at bin k; for a
constant input ring the rfft is a real multiple of this quantity. -/
noncomputable def hannDft (k : ℕ) : ℂ :=
  ∑ j ∈ Finset.range 4096,
    (hann j : ℂ) * Complex.exp (((-(2 * Real.pi * j * k / 4096) : ℝ) : ℂ) * Complex.I)

/-- Unit-circle point at angle theta: e^(i*theta), the building block of
all DFT kernels appearing in rfft and hannDft. -/
noncomputable def eangle (θ : ℝ) : ℂ := Complex.exp ((θ : ℂ) * Complex.I)

/-! ### Basic structural lemmas -/

theorem BAND_CENTERS_length : BAND_CENTERS.length = 19 := by
  rfl

theorem BAND_BINS_length : BAND_BINS.length = 19 := by
  rw [BAND_BINS, compute_band_bins, List.length_map]
  rfl

theorem ring_update_length (r c : List ℝ) (hr : r.length = 4096) :
    (ring_update r c).length = 4096 := by
  unfold ring_update
  split_ifs with h
  · rw [List.length_drop]
    omega
  · rw [List.length_append, List.length_drop, hr]
    omega

theorem analyze_state_silent (s : VizState) (c : List ℝ) (h : rms c < 1) :
    analyze_state s c =
      { prev_db := List.replicate s.prev_db.length NOISE_FLOOR,
        audio_ring := List.replicate s.audio_ring.length 0 } := by
  unfold analyze_state
  rw [if_pos h, List.map_const', List.map_const']

theorem analyze_state_loud (s : VizState) (c : List ℝ) (h : ¬ rms c < 1) :
    analyze_state s c =
      { prev_db := List.zipWith smooth s.prev_db
          ((List.range NUM_BANDS).map (band_db BAND_BINS (ring_update s.audio_ring c))),
        audio_ring := ring_update s.audio_ring c } := by
  unfold analyze_state
  rw [if_neg h]

theorem analyze_pcm_frame (s : VizState) (c : List ℝ) :
    (analyze_pcm s c).2 = String.intercalate ";" (((analyze_state s c).prev_db).map fmt) := rfl

/-! ### Window lemmas -/

theorem hann_nonneg (j : ℕ) : 0 ≤ hann j := by
  have h := Real.cos_le_one (2 * Real.pi * j / 4095)
  unfold hann
  linarith

theorem hann_le_one (j : ℕ) : hann j ≤ 1 := by
  have h := Real.neg_one_le_cos (2 * Real.pi * j / 4095)
  unfold hann
  linarith

theorem hann_2047 : 1 / 2 ≤ hann 2047 := by
  have hpi := Real.pi_pos
  have hc : Real.cos (2 * Real.pi * (2047 : ℕ) / 4095) ≤ 0 := by
    apply Real.cos_nonpos_of_pi_div_two_le_of_le
    · push_cast
      nlinarith
    · push_cast
      nlinarith
  unfold hann
  linarith

theorem sumHannSq_lower : 1 / 4 ≤ sumHannSq := by
  have hmem : (2047 : ℕ) ∈ Finset.range 4096 := Finset.mem_range.mpr (by norm_num)
  have h : hann 2047 ^ 2 ≤ ∑ j ∈ Finset.range 4096, hann j ^ 2 :=
    Finset.single_le_sum (fun i _ => sq_nonneg (hann i)) hmem
  have h2 := hann_2047
  have : (1 / 2 : ℝ) ^ 2 ≤ hann 2047 ^ 2 := by nlinarith
  unfold sumHannSq
  nlinarith

theorem sumHannSq_pos : 0 < sumHannSq := lt_of_lt_of_le (by norm_num) sumHannSq_lower

theorem sumHannSq_upper : sumHannSq ≤ 4096 := by
  have h : ∑ j ∈ Finset.range 4096, hann j ^ 2 ≤ ∑ _j ∈ Finset.range 4096, (1 : ℝ) :=
    Finset.sum_le_sum (fun i _ => by nlinarith [hann_nonneg i, hann_le_one i])
  simpa [sumHannSq] using h

theorem wpc_pos : 0 < WINDOW_POWER_CORR := div_pos (by norm_num) sumHannSq_pos

theorem one_le_wpc : 1 ≤ WINDOW_POWER_CORR :=
  (one_le_div sumHannSq_pos).mpr sumHannSq_upper

/-! ### Spectrum and band-power lemmas -/

theorem spectrum'_nonneg (r : List ℝ) (k : ℕ) : 0 ≤ spectrum' r k := by
  unfold spectrum'
  have h := wpc_pos
  positivity

theorem csum_sub (r : List ℝ) (l m : ℕ) (h : l ≤ m) :
    csum r m - csum r l = ∑ k ∈ Finset.Ico l m, spectrum' r k := by
  unfold csum
  rw [Finset.sum_Ico_eq_sub _ h]

theorem band_power_nonneg (bins : List (ℕ × ℕ)) (r : List ℝ) (b : ℕ) :
    0 ≤ band_power bins r b := le_max_right _ _

theorem total_power_nonneg (bins : List (ℕ × ℕ)) (r : List ℝ) :
    0 ≤ total_power bins r :=
  Finset.sum_nonneg (fun i _ => band_power_nonneg bins r i)

theorem band_power_le_total (bins : List (ℕ × ℕ)) (r : List ℝ) (b : ℕ)
    (hb : b < bins.length) : band_power bins r b ≤ total_power bins r :=
  Finset.single_le_sum (fun i _ => band_power_nonneg bins r i) (Finset.mem_range.mpr hb)

theorem bpn_le_one (bins : List (ℕ × ℕ)) (r : List ℝ) (b : ℕ)
    (hb : b < bins.length) : band_power_norm bins r b ≤ 1 := by
  unfold band_power_norm
  split_ifs with ht
  · exact (div_le_one (lt_trans (by norm_num) ht)).mpr (band_power_le_total bins r b hb)
  · have h1 := band_power_le_total bins r b hb
    have h2 := not_lt.mp ht
    nlinarith

theorem bpn_nonneg (bins : List (ℕ × ℕ)) (r : List ℝ) (b : ℕ) :
    0 ≤ band_power_norm bins r b := by
  unfold band_power_norm
  split_ifs with ht
  · exact div_nonneg (band_power_nonneg bins r b) (le_trans (by norm_num) ht.le)
  · exact band_power_nonneg bins r b

theorem band_db_ge_floor (bins : List (ℕ × ℕ)) (r : List ℝ) (b : ℕ) :
    NOISE_FLOOR ≤ band_db bins r b := by
  unfold band_db
  split_ifs with h
  · exact le_max_right _ _
  · exact le_refl _

theorem band_db_le_zero (bins : List (ℕ × ℕ)) (r : List ℝ) (b : ℕ)
    (hb : b < bins.length) : band_db bins r b ≤ 0 := by
  unfold band_db
  split_ifs with h
  · apply max_le _ (by norm_num [NOISE_FLOOR])
    have hle := bpn_le_one bins r b hb
    have hlog : Real.logb 10 (band_power_norm bins r b) ≤ 0 :=
      Real.logb_nonpos (by norm_num) (bpn_nonneg bins r b) hle
    linarith
  · norm_num [NOISE_FLOOR]

/-! ### Smoothing lemmas -/

theorem smooth_ge (lo p d : ℝ) (hp : lo ≤ p) (hd : lo ≤ d) : lo ≤ smooth p d := by
  unfold smooth ATTACK_COEFF DECAY_COEFF
  split_ifs with h <;> nlinarith

theorem smooth_le (hi p d : ℝ) (hp : p ≤ hi) (hd : d ≤ hi) : smooth p d ≤ hi := by
  unfold smooth ATTACK_COEFF DECAY_COEFF
  split_ifs with h <;> nlinarith

/-! ### Rounding and formatting lemmas -/

theorem roundHalfEven_intCast (z : ℤ) : roundHalfEven z = z := by
  unfold roundHalfEven
  rw [Int.floor_intCast]
  rw [if_pos (by norm_num)]

theorem roundHalfEven_ge (x : ℝ) (z : ℤ) (h : (z : ℝ) ≤ x) : z ≤ roundHalfEven x := by
  have hf : z ≤ ⌊x⌋ := Int.le_floor.mpr h
  unfold roundHalfEven
  split_ifs <;> omega

theorem roundHalfEven_le_zero (x : ℝ) (h : x ≤ 0) : roundHalfEven x ≤ 0 := by
  have hf : ⌊x⌋ ≤ 0 := by
    have h0 : ⌊x⌋ ≤ ⌊(0 : ℝ)⌋ := Int.floor_le_floor h
    simpa using h0
  have hfl := Int.floor_le x
  unfold roundHalfEven
  split_ifs with h1 h2 h3
  · exact hf
  · have hr : (⌊x⌋ : ℝ) < -(1 / 2) := by linarith
    have : (⌊x⌋ : ℝ) < 0 := by linarith
    have : ⌊x⌋ < 0 := by exact_mod_cast this
    omega
  · exact hf
  · have hr : (⌊x⌋ : ℝ) = x - 1 / 2 := by linarith
    have : (⌊x⌋ : ℝ) < 0 := by linarith
    have : ⌊x⌋ < 0 := by exact_mod_cast this
    omega

theorem fmt_floor : fmt NOISE_FLOOR = "-72.0" := by
  unfold fmt NOISE_FLOOR
  have h : (10 : ℝ) * (-72) = ((-720 : ℤ) : ℝ) := by norm_num
  rw [h, roundHalfEven_intCast]
  rfl

/-! ### List access helpers -/

theorem getD_zipWith (f : ℝ → ℝ → ℝ) (a b : List ℝ) (i : ℕ)
    (h1 : i < a.length) (h2 : i < b.length) :
    (List.zipWith f a b).getD i 0 = f (a.getD i 0) (b.getD i 0) := by
  have hz : i < (List.zipWith f a b).length := by
    rw [List.length_zipWith]
    omega
  rw [List.getD_eq_getElem _ _ hz, List.getD_eq_getElem _ _ h1, List.getD_eq_getElem _ _ h2]
  exact List.getElem_zipWith

theorem getD_band_list (g : ℕ → ℝ) (i n : ℕ) (h : i < n) :
    (((List.range n).map g).getD i 0) = g i := by
  have hm : i < ((List.range n).map g).length := by
    rw [List.length_map, List.length_range]
    exact h
  rw [List.getD_eq_getElem _ _ hm]
  simp

/-! ### Concrete silence-gate evaluations used by witnesses -/

theorem rms_zero_single : rms [(0 : ℝ)] < 1 := by
  unfold rms sumSq
  simp

theorem rms_two : ¬ rms [(2 : ℝ)] < 1 := by
  unfold rms sumSq
  simp only [List.map_cons, List.map_nil, List.sum_cons, List.sum_nil, List.length_cons,
    List.length_nil]
  norm_num

theorem csum_mono (r : List ℝ) (l m : ℕ) (h : l ≤ m) : csum r l ≤ csum r m := by
  unfold csum
  apply Finset.sum_le_sum_of_subset_of_nonneg (Finset.range_subset.mpr h)
  intro i _ _
  exact spectrum'_nonneg r i

theorem initState_prev_len : initState.prev_db.length = 19 := by
  unfold initState
  rw [List.length_replicate]
  rfl

theorem initState_ring_len : initState.audio_ring.length = 4096 := by
  unfold initState
  rw [List.length_replicate]
  rfl

/-- C1: for every input chunk whose RMS is below 1.0 (in particular any
all-zero chunk), analyze_pcm short-circuits without running the FFT: every
ring-buffer element becomes 0.0, every smoothing-state element becomes the
noise floor -72.0, and the frame is exactly 19 copies of "-72.0" joined by
";", regardless of the previous ring and smoothing contents. -/
theorem C1_silence_short_circuit (s : VizState) (c : List ℝ)
    (hp : s.prev_db.length = 19) (hrms : rms c < 1) :
    (analyze_state s c).audio_ring = List.replicate s.audio_ring.length 0 ∧
    (analyze_state s c).prev_db = List.replicate 19 NOISE_FLOOR ∧
    (analyze_pcm s c).2 = String.intercalate ";" (List.replicate 19 "-72.0") := by
  have h := analyze_state_silent s c hrms
  refine ⟨by rw [h], by rw [h, hp], ?_⟩
  rw [analyze_pcm_frame, h]
  simp only [hp, List.map_replicate, fmt_floor]

/-- Witness for C1 at the all-zero one-sample chunk and dirty state. -/
theorem C1_witness :
    (analyze_state ⟨List.replicate 19 5, [1, 2]⟩ [0]).audio_ring = List.replicate 2 0 ∧
    (analyze_state ⟨List.replicate 19 5, [1, 2]⟩ [0]).prev_db = List.replicate 19 NOISE_FLOOR ∧
    (analyze_pcm ⟨List.replicate 19 5, [1, 2]⟩ [0]).2 =
      String.intercalate ";" (List.replicate 19 "-72.0") := by
  have h := C1_silence_short_circuit ⟨List.replicate 19 5, [1, 2]⟩ [0]
    (by rw [List.length_replicate]) rms_zero_single
  exact ⟨by simpa using h.1, h.2.1, h.2.2⟩

/-- C2: for every chunk of length at least 1 and every well-formed state,
analyze_pcm emits the ";"-join of exactly 19 formatted fields (no trailing
separator), each field being the decimal rendering of an integer number of
tenths; the state stays well-formed. -/
theorem C2_frame_fields (s : VizState) (c : List ℝ) (hc : 1 ≤ c.length)
    (hp : s.prev_db.length = 19) (hr : s.audio_ring.length = 4096) :
    ∃ vs : List ℝ,
      (analyze_pcm s c).2 = String.intercalate ";" (vs.map fmt) ∧
      vs.length = 19 ∧
      (∀ f ∈ vs.map fmt, ∃ z : ℤ, f = decimalStr z) ∧
      (analyze_state s c).prev_db.length = 19 ∧
      (analyze_state s c).audio_ring.length = 4096 := by
  have hlen : (analyze_state s c).prev_db.length = 19 ∧
      (analyze_state s c).audio_ring.length = 4096 := by
    by_cases h : rms c < 1
    · rw [analyze_state_silent s c h]
      exact ⟨by rw [List.length_replicate] at *; exact hp, by rw [List.length_replicate]; exact hr⟩
    · rw [analyze_state_loud s c h]
      refine ⟨?_, ring_update_length _ _ hr⟩
      rw [List.length_zipWith, List.length_map, List.length_range, hp]
      rfl
  refine ⟨(analyze_state s c).prev_db, analyze_pcm_frame s c, hlen.1, ?_, hlen.1, hlen.2⟩
  intro f hf
  rcases List.mem_map.mp hf with ⟨v, _, rfl⟩
  exact ⟨roundHalfEven (10 * v), rfl⟩

/-- Witness for C2 at the initial state and a one-sample chunk. -/
theorem C2_witness :
    ∃ vs : List ℝ,
      (analyze_pcm initState [0]).2 = String.intercalate ";" (vs.map fmt) ∧
      vs.length = 19 ∧
      (∀ f ∈ vs.map fmt, ∃ z : ℤ, f = decimalStr z) ∧
      (analyze_state initState [0]).prev_db.length = 19 ∧
      (analyze_state initState [0]).audio_ring.length = 4096 :=
  C2_frame_fields initState [0] (by simp) initState_prev_len initState_ring_len

/-- C5: on every non-silent tick each band is smoothed by
displayed += (raw - displayed) * rate with rate 1-ATTACK_COEFF = 0.6 when
the raw level exceeds the displayed one and 1-DECAY_COEFF = 0.15 otherwise,
the attack multiplier being strictly larger than the decay multiplier. -/
theorem C5_smoothing_rule (s : VizState) (c : List ℝ) (i : ℕ) (hi : i < 19)
    (hp : s.prev_db.length = 19) (hns : ¬ rms c < 1) :
    (analyze_state s c).prev_db.getD i 0 =
      s.prev_db.getD i 0 +
        (band_db BAND_BINS (ring_update s.audio_ring c) i - s.prev_db.getD i 0) *
          (if s.prev_db.getD i 0 < band_db BAND_BINS (ring_update s.audio_ring c) i
            then 1 - ATTACK_COEFF else 1 - DECAY_COEFF) ∧
    1 - ATTACK_COEFF = 0.6 ∧ 1 - DECAY_COEFF = 0.15 ∧
    1 - DECAY_COEFF < 1 - ATTACK_COEFF := by
  refine ⟨?_, by norm_num [ATTACK_COEFF], by norm_num [DECAY_COEFF],
    by norm_num [ATTACK_COEFF, DECAY_COEFF]⟩
  rw [analyze_state_loud s c hns]
  dsimp only
  rw [getD_zipWith smooth _ _ i (by rw [hp]; exact hi)
    (by simp only [List.length_map, List.length_range]; exact hi)]
  rw [getD_band_list (band_db BAND_BINS (ring_update s.audio_ring c)) i NUM_BANDS hi]
  unfold smooth
  rfl

/-- Witness for C5 at the initial state, a loud one-sample chunk, band 0. -/
theorem C5_witness :
    (analyze_state initState [2]).prev_db.getD 0 0 =
      initState.prev_db.getD 0 0 +
        (band_db BAND_BINS (ring_update initState.audio_ring [2]) 0 -
            initState.prev_db.getD 0 0) *
          (if initState.prev_db.getD 0 0 <
              band_db BAND_BINS (ring_update initState.audio_ring [2]) 0
            then 1 - ATTACK_COEFF else 1 - DECAY_COEFF) ∧
    1 - ATTACK_COEFF = 0.6 ∧ 1 - DECAY_COEFF = 0.15 ∧
    1 - DECAY_COEFF < 1 - ATTACK_COEFF :=
  C5_smoothing_rule initState [2] 0 (by norm_num) initState_prev_len rms_two

/-- C6: on every non-silent tick with a chunk of n ≥ 1 samples, the ring
buffer is fully replaced by the last FFT_SIZE samples when n ≥ FFT_SIZE,
and otherwise shifted left by n with the new samples appended; afterwards
it again holds exactly FFT_SIZE samples. -/
theorem C6_ring_update_cases (s : VizState) (c : List ℝ)
    (hr : s.audio_ring.length = 4096) (hc : 1 ≤ c.length) (hns : ¬ rms c < 1) :
    (4096 ≤ c.length → (analyze_state s c).audio_ring = c.drop (c.length - 4096)) ∧
    (c.length < 4096 → (analyze_state s c).audio_ring = s.audio_ring.drop c.length ++ c) ∧
    (analyze_state s c).audio_ring.length = 4096 := by
  rw [analyze_state_loud s c hns]
  refine ⟨fun h => ?_, fun h => ?_, ring_update_length _ _ hr⟩
  · unfold ring_update
    rw [if_pos h]
  · unfold ring_update
    rw [if_neg (by omega)]

/-- Witness for C6 at the initial state with a short loud chunk. -/
theorem C6_witness :
    (4096 ≤ List.length [(2 : ℝ)] →
      (analyze_state initState [2]).audio_ring =
        List.drop (List.length [(2 : ℝ)] - 4096) [(2 : ℝ)]) ∧
    (List.length [(2 : ℝ)] < 4096 →
      (analyze_state initState [2]).audio_ring =
        initState.audio_ring.drop (List.length [(2 : ℝ)]) ++ [2]) ∧
    (analyze_state initState [2]).audio_ring.length = 4096 :=
  C6_ring_update_cases initState [2] initState_ring_len (by simp) rms_two

/-- C8: a band whose clipped bin range lies entirely at or beyond the
one-sided spectrum length 2049 gets the floor level instead of an error,
and a band of zero power likewise gets the floor level. -/
theorem C8_out_of_range_floor (bins : List (ℕ × ℕ)) (ring : List ℝ) (b : ℕ)
    (hb : b < bins.length) :
    (2049 ≤ (bins.getD b (0, 0)).1 → band_db bins ring b = NOISE_FLOOR) ∧
    (band_power bins ring b = 0 → band_db bins ring b = NOISE_FLOOR) := by
  have key : band_power bins ring b = 0 → band_db bins ring b = NOISE_FLOOR := by
    intro hzero
    have hbpn : band_power_norm bins ring b = 0 := by
      unfold band_power_norm
      rw [hzero]
      split_ifs <;> simp
    unfold band_db
    rw [hbpn]
    simp
  refine ⟨fun hlo => key ?_, key⟩
  unfold band_power
  have hmin : min (bins.getD b (0, 0)).1 2049 = 2049 := min_eq_right hlo
  rw [hmin]
  have hle : csum ring (min (bins.getD b (0, 0)).2 2049) ≤ csum ring 2049 :=
    csum_mono ring _ _ (min_le_right _ _)
  have : csum ring (min (bins.getD b (0, 0)).2 2049) - csum ring 2049 ≤ 0 := by linarith
  exact max_eq_right this

/-- Witness for C8 on a one-band table whose range starts beyond the
spectrum length. -/
theorem C8_witness :
    (2049 ≤ (([((3000 : ℕ), (3001 : ℕ))] : List (ℕ × ℕ)).getD 0 (0, 0)).1 →
      band_db [(3000, 3001)] [] 0 = NOISE_FLOOR) ∧
    (band_power [(3000, 3001)] [] 0 = 0 → band_db [(3000, 3001)] [] 0 = NOISE_FLOOR) :=
  C8_out_of_range_floor [(3000, 3001)] [] 0 (by norm_num)

/-! ### Trajectory invariants -/

theorem exists_of_mem_zipWith {f : ℝ → ℝ → ℝ} :
    ∀ {a b : List ℝ} {v : ℝ}, v ∈ List.zipWith f a b → ∃ x ∈ a, ∃ y ∈ b, v = f x y := by
  intro a
  induction a with
  | nil => intro b v h; simp at h
  | cons x xs ih =>
    intro b v h
    cases b with
    | nil => simp at h
    | cons y ys =>
      rw [List.zipWith_cons_cons] at h
      rcases List.mem_cons.mp h with rfl | h2
      · exact ⟨x, by simp, y, by simp, rfl⟩
      · rcases ih h2 with ⟨x', hx', y', hy', rfl⟩
        exact ⟨x', by simp [hx'], y', by simp [hy'], rfl⟩

theorem band_list_bounds (r : List ℝ) :
    ∀ d ∈ (List.range NUM_BANDS).map (band_db BAND_BINS r), NOISE_FLOOR ≤ d ∧ d ≤ 0 := by
  intro d hd
  rcases List.mem_map.mp hd with ⟨b, hb, rfl⟩
  have hb19 : b < 19 := List.mem_range.mp hb
  refine ⟨band_db_ge_floor _ _ _, band_db_le_zero _ _ _ ?_⟩
  rw [BAND_BINS_length]
  exact hb19

theorem prev_bounds_step (s : VizState) (c : List ℝ)
    (h : ∀ v ∈ s.prev_db, NOISE_FLOOR ≤ v ∧ v ≤ 0) :
    ∀ v ∈ (analyze_state s c).prev_db, NOISE_FLOOR ≤ v ∧ v ≤ 0 := by
  by_cases hs : rms c < 1
  · rw [analyze_state_silent s c hs]
    intro v hv
    dsimp only at hv
    have hv' := List.eq_of_mem_replicate hv
    subst hv'
    norm_num [NOISE_FLOOR]
  · rw [analyze_state_loud s c hs]
    intro v hv
    dsimp only at hv
    rcases exists_of_mem_zipWith hv with ⟨p, hp, d, hd, rfl⟩
    have hpb := h p hp
    have hdb := band_list_bounds (ring_update s.audio_ring c) d hd
    exact ⟨smooth_ge _ _ _ hpb.1 hdb.1, smooth_le _ _ _ hpb.2 hdb.2⟩

theorem initState_prev_bounds : ∀ v ∈ initState.prev_db, NOISE_FLOOR ≤ v ∧ v ≤ 0 := by
  intro v hv
  unfold initState at hv
  have hv' := List.eq_of_mem_replicate hv
  subst hv'
  norm_num [NOISE_FLOOR]

theorem prev_bounds_fold (chunks : List (List ℝ)) :
    ∀ s : VizState, (∀ v ∈ s.prev_db, NOISE_FLOOR ≤ v ∧ v ≤ 0) →
      ∀ v ∈ (chunks.foldl analyze_state s).prev_db, NOISE_FLOOR ≤ v ∧ v ≤ 0 := by
  induction chunks with
  | nil => intro s h; simpa using h
  | cons c rest ih =>
    intro s h
    exact ih _ (prev_bounds_step s c h)

theorem frames_bounds (chunks : List (List ℝ)) :
    ∀ s : VizState, (∀ v ∈ s.prev_db, NOISE_FLOOR ≤ v ∧ v ≤ 0) →
      ∀ fr ∈ runFrames chunks s, ∃ vs : List ℝ,
        fr = String.intercalate ";" (vs.map fmt) ∧ ∀ v ∈ vs, NOISE_FLOOR ≤ v ∧ v ≤ 0 := by
  induction chunks with
  | nil =>
    intro s _ fr hfr
    simp [runFrames] at hfr
  | cons c rest ih =>
    intro s h fr hfr
    simp only [runFrames, List.mem_cons] at hfr
    rcases hfr with rfl | h2
    · exact ⟨(analyze_state s c).prev_db, analyze_pcm_frame s c, prev_bounds_step s c h⟩
    · exact ih _ (prev_bounds_step s c h) fr h2

theorem floor_tenths (v : ℝ) (h : NOISE_FLOOR ≤ v) : (-720 : ℤ) ≤ roundHalfEven (10 * v) := by
  apply roundHalfEven_ge
  unfold NOISE_FLOOR at h
  push_cast
  linarith

/-- C4: starting from the initial state, every element of the smoothing
state stays at or above the noise floor after every tick, and every field
of every emitted frame renders a value at or above -72.0 (at least -720
tenths). -/
theorem C4_floor_invariant (chunks : List (List ℝ)) (hne : ∀ c ∈ chunks, c ≠ []) :
    (∀ v ∈ (runStates chunks).prev_db, NOISE_FLOOR ≤ v) ∧
    (∀ fr ∈ runFrames chunks initState, ∃ vs : List ℝ,
      fr = String.intercalate ";" (vs.map fmt) ∧
      ∀ v ∈ vs, NOISE_FLOOR ≤ v ∧ (-720 : ℤ) ≤ roundHalfEven (10 * v)) := by
  constructor
  · intro v hv
    exact (prev_bounds_fold chunks initState initState_prev_bounds v hv).1
  · intro fr hfr
    rcases frames_bounds chunks initState initState_prev_bounds fr hfr with ⟨vs, hvs, hb⟩
    refine ⟨vs, hvs, fun v hv => ⟨(hb v hv).1, floor_tenths v (hb v hv).1⟩⟩

/-- Witness for C4 on a short concrete chunk sequence. -/
theorem C4_witness :
    (∀ v ∈ (runStates [[0], [2]]).prev_db, NOISE_FLOOR ≤ v) ∧
    (∀ fr ∈ runFrames [[0], [2]] initState, ∃ vs : List ℝ,
      fr = String.intercalate ";" (vs.map fmt) ∧
      ∀ v ∈ vs, NOISE_FLOOR ≤ v ∧ (-720 : ℤ) ≤ roundHalfEven (10 * v)) :=
  C4_floor_invariant [[0], [2]] (by intro c hc; fin_cases hc <;> simp)

theorem zero_tenths (v : ℝ) (h : v ≤ 0) : roundHalfEven (10 * v) ≤ 0 :=
  roundHalfEven_le_zero _ (by linarith)

/-- C10: starting from the initial state, every element of the smoothing
state stays at or below 0.0 dB and every field of every emitted frame
renders a non-positive value; moreover the normalized band fractions sum
to 1 whenever the total power exceeds 1e-30 and are each at most 1e-30
otherwise, so each fraction is at most 1. -/
theorem C10_output_upper_bound (chunks : List (List ℝ)) (hne : ∀ c ∈ chunks, c ≠ []) :
    (∀ v ∈ (runStates chunks).prev_db, v ≤ 0) ∧
    (∀ fr ∈ runFrames chunks initState, ∃ vs : List ℝ,
      fr = String.intercalate ";" (vs.map fmt) ∧
      ∀ v ∈ vs, v ≤ 0 ∧ roundHalfEven (10 * v) ≤ 0) ∧
    (∀ r : List ℝ, 1e-30 < total_power BAND_BINS r →
      ∑ b ∈ Finset.range 19, band_power_norm BAND_BINS r b = 1) ∧
    (∀ r : List ℝ, ¬ 1e-30 < total_power BAND_BINS r →
      ∀ b, b < 19 → band_power_norm BAND_BINS r b ≤ 1e-30) ∧
    (∀ r : List ℝ, ∀ b, b < 19 → band_power_norm BAND_BINS r b ≤ 1) := by
  refine ⟨?_, ?_, ?_, ?_, ?_⟩
  · intro v hv
    exact (prev_bounds_fold chunks initState initState_prev_bounds v hv).2
  · intro fr hfr
    rcases frames_bounds chunks initState initState_prev_bounds fr hfr with ⟨vs, hvs, hb⟩
    exact ⟨vs, hvs, fun v hv => ⟨(hb v hv).2, zero_tenths v (hb v hv).2⟩⟩
  · intro r ht
    have hT : total_power BAND_BINS r ≠ 0 := by
      have : (0 : ℝ) < 1e-30 := by norm_num
      linarith
    have hsum : ∑ b ∈ Finset.range 19, band_power BAND_BINS r b = total_power BAND_BINS r := by
      unfold total_power
      rw [BAND_BINS_length]
    calc ∑ b ∈ Finset.range 19, band_power_norm BAND_BINS r b
        = ∑ b ∈ Finset.range 19, band_power BAND_BINS r b / total_power BAND_BINS r := by
          apply Finset.sum_congr rfl
          intro b _
          unfold band_power_norm
          rw [if_pos ht]
      _ = 1 := by rw [← Finset.sum_div, hsum, div_self hT]
  · intro r ht b hb
    unfold band_power_norm
    rw [if_neg ht]
    have h1 := band_power_le_total BAND_BINS r b (by rw [BAND_BINS_length]; exact hb)
    have h2 := not_lt.mp ht
    linarith
  · intro r b hb
    exact bpn_le_one BAND_BINS r b (by rw [BAND_BINS_length]; exact hb)

/-- Witness for C10 on a short concrete chunk sequence. -/
theorem C10_witness :
    (∀ v ∈ (runStates [[0], [2]]).prev_db, v ≤ 0) ∧
    (∀ fr ∈ runFrames [[0], [2]] initState, ∃ vs : List ℝ,
      fr = String.intercalate ";" (vs.map fmt) ∧
      ∀ v ∈ vs, v ≤ 0 ∧ roundHalfEven (10 * v) ≤ 0) ∧
    (∀ r : List ℝ, 1e-30 < total_power BAND_BINS r →
      ∑ b ∈ Finset.range 19, band_power_norm BAND_BINS r b = 1) ∧
    (∀ r : List ℝ, ¬ 1e-30 < total_power BAND_BINS r →
      ∀ b, b < 19 → band_power_norm BAND_BINS r b ≤ 1e-30) ∧
    (∀ r : List ℝ, ∀ b, b < 19 → band_power_norm BAND_BINS r b ≤ 1) :=
  C10_output_upper_bound [[0], [2]] (by intro c hc; fin_cases hc <;> simp)

/-! ### searchsorted characterization -/

theorem countP_range_eq (q : ℕ → Bool) :
    ∀ N m : ℕ, m ≤ N → (∀ k, k < m → q k = true) → (∀ k, m ≤ k → k < N → q k = false) →
      (List.range N).countP q = m := by
  intro N
  induction N with
  | zero =>
    intro m hm _ _
    interval_cases m
    simp
  | succ N ih =>
    intro m hm h1 h2
    rw [List.range_succ, List.countP_append]
    by_cases hmN : m ≤ N
    · rw [ih m hmN h1 (fun k hk1 hk2 => h2 k hk1 (by omega))]
      have hq : q N = false := h2 N (by omega) (by omega)
      simp [List.countP_cons, hq]
    · have hm1 : m = N + 1 := by omega
      subst hm1
      rw [ih N (le_refl N) (fun k hk => h1 k (by omega))
        (fun k hk1 hk2 => absurd hk2 (Nat.not_lt.mpr hk1))]
      have hq : q N = true := h1 N (by omega)
      simp [List.countP_cons, hq]

theorem searchsorted_freqBins (sr v : ℝ) :
    searchsorted (freqBins sr) v =
      (List.range 2049).countP (fun k => decide (rfreq sr k < v)) := by
  unfold searchsorted freqBins
  rw [List.countP_map]
  rfl

theorem rfreq_mono (sr : ℝ) (hsr : 0 < sr) (k1 k2 : ℕ) (h : k1 ≤ k2) :
    rfreq sr k1 ≤ rfreq sr k2 := by
  have hc : (k1 : ℝ) ≤ k2 := by exact_mod_cast h
  unfold rfreq
  nlinarith

theorem searchsorted_freqBins_eq (sr v : ℝ) (m : ℕ) (hm : m ≤ 2049)
    (h1 : ∀ k : ℕ, k < m → rfreq sr k < v)
    (h2 : ∀ k : ℕ, m ≤ k → k < 2049 → v ≤ rfreq sr k) :
    searchsorted (freqBins sr) v = m := by
  rw [searchsorted_freqBins]
  apply countP_range_eq _ _ _ hm
  · intro k hk
    simp [h1 k hk]
  · intro k hk1 hk2
    simp [not_lt.mpr (h2 k hk1 hk2)]

theorem searchsorted_freqBins_eval (sr v : ℝ) (hsr : 0 < sr) (m : ℕ)
    (hm1 : 1 ≤ m) (hm : m ≤ 2048)
    (hlt : rfreq sr (m - 1) < v) (hge : v ≤ rfreq sr m) :
    searchsorted (freqBins sr) v = m := by
  apply searchsorted_freqBins_eq sr v m (by omega)
  · intro k hk
    exact lt_of_le_of_lt (rfreq_mono sr hsr k (m - 1) (by omega)) hlt
  · intro k hk1 _
    exact le_trans hge (rfreq_mono sr hsr m k hk1)

theorem searchsorted_freqBins_isLeast (sr v : ℝ) (hsr : 0 < sr)
    (hv : v ≤ rfreq sr 2048) :
    IsLeast {k : ℕ | v ≤ rfreq sr k} (searchsorted (freqBins sr) v) := by
  classical
  have hex : ∃ k, v ≤ rfreq sr k := ⟨2048, hv⟩
  have hmem : v ≤ rfreq sr (Nat.find hex) := Nat.find_spec hex
  have hmin : ∀ k, v ≤ rfreq sr k → Nat.find hex ≤ k := fun k hk => Nat.find_min' hex hk
  have hm2048 : Nat.find hex ≤ 2048 := hmin 2048 hv
  have heq : searchsorted (freqBins sr) v = Nat.find hex := by
    apply searchsorted_freqBins_eq sr v (Nat.find hex) (by omega)
    · intro k hk
      by_contra hcon
      push_neg at hcon
      exact absurd (hmin k hcon) (by omega)
    · intro k hk1 _
      exact le_trans hmem (rfreq_mono sr hsr (Nat.find hex) k hk1)
  rw [heq]
  exact ⟨hmem, hmin⟩

theorem searchsorted_mono_v (l : List ℝ) (v1 v2 : ℝ) (h : v1 ≤ v2) :
    searchsorted l v1 ≤ searchsorted l v2 := by
  unfold searchsorted
  apply List.countP_mono_left
  intro x _ hx
  simp only [decide_eq_true_eq] at hx ⊢
  linarith

theorem searchsorted_le_2049 (sr v : ℝ) : searchsorted (freqBins sr) v ≤ 2049 := by
  unfold searchsorted
  calc (freqBins sr).countP (fun x => decide (x < v)) ≤ (freqBins sr).length :=
        List.countP_le_length _
    _ = 2049 := by rw [freqBins, List.length_map, List.length_range]

/-! ### Edge-factor facts -/

theorem ef_pos : 0 < edgeFactor "half-octave" := by
  unfold edgeFactor
  rw [if_neg (by decide)]
  exact Real.rpow_pos_of_pos (by norm_num) _

theorem one_le_ef : 1 ≤ edgeFactor "half-octave" := by
  unfold edgeFactor
  rw [if_neg (by decide)]
  apply Real.one_le_rpow (by norm_num) (by norm_num)

theorem ef_le_two : edgeFactor "half-octave" ≤ 2 := by
  unfold edgeFactor
  rw [if_neg (by decide)]
  calc (2 : ℝ) ^ ((1 : ℝ) / 4) ≤ (2 : ℝ) ^ ((1 : ℝ)) :=
        Real.rpow_le_rpow_of_exponent_le (by norm_num) (by norm_num)
    _ = 2 := Real.rpow_one 2

theorem centers_facts : ∀ c ∈ BAND_CENTERS, (20 : ℝ) ≤ c ∧ c ≤ 10000 := by
  intro c hc
  have hc' : c ∈ ([20, 28, 40, 57, 80, 113, 160, 226, 320, 453,
      640, 894, 1250, 1768, 2500, 3536, 5000, 7071, 10000] : List ℝ) := by
    rw [BAND_CENTERS, generate_band_centers, if_neg (by decide)] at hc
    exact hc
  fin_cases hc' <;> norm_num

theorem compute_band_bins_getD (sr : ℝ) (i : ℕ) (h : i < 19) :
    (compute_band_bins sr "half-octave").getD i (0, 0) =
      (searchsorted (freqBins sr) (BAND_CENTERS.getD i 0 / edgeFactor "half-octave"),
       max (searchsorted (freqBins sr) (BAND_CENTERS.getD i 0 * edgeFactor "half-octave"))
         (searchsorted (freqBins sr) (BAND_CENTERS.getD i 0 / edgeFactor "half-octave") + 1)) := by
  have hlen : (generate_band_centers "half-octave").length = 19 := by rfl
  have hi : i < (compute_band_bins sr "half-octave").length := by
    rw [compute_band_bins, List.length_map, hlen]
    exact h
  have hig : i < (generate_band_centers "half-octave").length := by
    rw [hlen]
    exact h
  rw [List.getD_eq_getElem _ _ hi]
  have hgd : BAND_CENTERS.getD i 0 = (generate_band_centers "half-octave")[i] := by
    rw [BAND_CENTERS, List.getD_eq_getElem _ _ hig]
  rw [hgd]
  unfold compute_band_bins
  simp only [List.getElem_map]

theorem center_getD_mem (i : ℕ) (h : i < 19) : BAND_CENTERS.getD i 0 ∈ BAND_CENTERS := by
  have hig : i < BAND_CENTERS.length := by
    rw [BAND_CENTERS_length]
    exact h
  rw [List.getD_eq_getElem _ _ hig]
  exact List.getElem_mem _

/-- C7: with sampleRate 48000, fftSize 4096 and the half-octave centers,
each band's bin pair is (lo, max hi0 (lo+1)) where lo is the least bin
index whose frequency reaches center/edgeRatio and hi0 the least reaching
center*edgeRatio, and every pair satisfies 0 ≤ lo < hi ≤ 2049. -/
theorem C7_band_bins (i : ℕ) (h : i < 19) :
    ∃ lo hi0 : ℕ,
      (compute_band_bins 48000 "half-octave").getD i (0, 0) = (lo, max hi0 (lo + 1)) ∧
      IsLeast {k : ℕ | BAND_CENTERS.getD i 0 / edgeFactor "half-octave" ≤ rfreq 48000 k} lo ∧
      IsLeast {k : ℕ | BAND_CENTERS.getD i 0 * edgeFactor "half-octave" ≤ rfreq 48000 k} hi0 ∧
      0 ≤ lo ∧ lo < max hi0 (lo + 1) ∧ max hi0 (lo + 1) ≤ 2049 := by
  have hc := centers_facts (BAND_CENTERS.getD i 0) (center_getD_mem i h)
  have h2048 : rfreq 48000 2048 = 24000 := by
    unfold rfreq
    norm_num
  have hdiv_le : BAND_CENTERS.getD i 0 / edgeFactor "half-octave" ≤ rfreq 48000 2048 := by
    rw [h2048]
    have hd : BAND_CENTERS.getD i 0 / edgeFactor "half-octave" ≤ BAND_CENTERS.getD i 0 :=
      div_le_self (by linarith [hc.1]) one_le_ef
    linarith [hc.2]
  have hmul_le : BAND_CENTERS.getD i 0 * edgeFactor "half-octave" ≤ rfreq 48000 2048 := by
    rw [h2048]
    nlinarith [hc.1, hc.2, ef_le_two, ef_pos]
  have hlo := searchsorted_freqBins_isLeast 48000
    (BAND_CENTERS.getD i 0 / edgeFactor "half-octave") (by norm_num) hdiv_le
  have hhi := searchsorted_freqBins_isLeast 48000
    (BAND_CENTERS.getD i 0 * edgeFactor "half-octave") (by norm_num) hmul_le
  refine ⟨_, _, compute_band_bins_getD 48000 i h, hlo, hhi, Nat.zero_le _, ?_, ?_⟩
  · exact lt_of_lt_of_le (Nat.lt_succ_self _) (le_max_right _ _)
  · apply max_le (searchsorted_le_2049 _ _)
    have hle : searchsorted (freqBins 48000)
        (BAND_CENTERS.getD i 0 / edgeFactor "half-octave") ≤ 2048 := hlo.2 hdiv_le
    omega

/-- Witness for C7 at the first band. -/
theorem C7_witness :
    ∃ lo hi0 : ℕ,
      (compute_band_bins 48000 "half-octave").getD 0 (0, 0) = (lo, max hi0 (lo + 1)) ∧
      IsLeast {k : ℕ | BAND_CENTERS.getD 0 0 / edgeFactor "half-octave" ≤ rfreq 48000 k} lo ∧
      IsLeast {k : ℕ | BAND_CENTERS.getD 0 0 * edgeFactor "half-octave" ≤ rfreq 48000 k} hi0 ∧
      0 ≤ lo ∧ lo < max hi0 (lo + 1) ∧ max hi0 (lo + 1) ≤ 2049 :=
  C7_band_bins 0 (by norm_num)

/-! ### Quartic-power bridges for edge comparisons -/

theorem ef_pow_four : edgeFactor "half-octave" ^ (4 : ℕ) = 2 := by
  unfold edgeFactor
  rw [if_neg (by decide)]
  rw [← Real.rpow_natCast ((2 : ℝ) ^ ((1 : ℝ) / 4)) 4, ← Real.rpow_mul (by norm_num)]
  rw [show ((1 : ℝ) / 4) * ((4 : ℕ) : ℝ) = 1 by norm_num, Real.rpow_one]

theorem lt_div_ef_iff (q c : ℝ) (hq : 0 ≤ q) (hc : 0 < c) :
    q < c / edgeFactor "half-octave" ↔ q ^ (4 : ℕ) * 2 < c ^ (4 : ℕ) := by
  rw [lt_div_iff ef_pos]
  rw [← pow_lt_pow_iff_left (mul_nonneg hq ef_pos.le) hc.le (by norm_num : (4 : ℕ) ≠ 0)]
  rw [mul_pow, ef_pow_four]

theorem div_ef_le_iff (q c : ℝ) (hq : 0 ≤ q) (hc : 0 < c) :
    c / edgeFactor "half-octave" ≤ q ↔ c ^ (4 : ℕ) ≤ q ^ (4 : ℕ) * 2 := by
  rw [div_le_iff ef_pos]
  rw [← pow_le_pow_iff_left hc.le (mul_nonneg hq ef_pos.le) (by norm_num : (4 : ℕ) ≠ 0)]
  rw [mul_pow, ef_pow_four]

theorem lt_mul_ef_iff (q c : ℝ) (hq : 0 ≤ q) (hc : 0 < c) :
    q < c * edgeFactor "half-octave" ↔ q ^ (4 : ℕ) < c ^ (4 : ℕ) * 2 := by
  rw [← pow_lt_pow_iff_left hq (mul_nonneg hc.le ef_pos.le) (by norm_num : (4 : ℕ) ≠ 0)]
  rw [mul_pow, ef_pow_four]

theorem mul_ef_le_iff (q c : ℝ) (hq : 0 ≤ q) (hc : 0 < c) :
    c * edgeFactor "half-octave" ≤ q ↔ c ^ (4 : ℕ) * 2 ≤ q ^ (4 : ℕ) := by
  rw [← pow_le_pow_iff_left (mul_nonneg hc.le ef_pos.le) hq (by norm_num : (4 : ℕ) ≠ 0)]
  rw [mul_pow, ef_pow_four]

/-! ### Concrete band bins at the default sample rate 44100 -/

theorem rfreq_nonneg (sr : ℝ) (hsr : 0 ≤ sr) (k : ℕ) : 0 ≤ rfreq sr k := by
  unfold rfreq
  positivity

theorem ss_lo_10000 :
    searchsorted (freqBins 44100) (10000 / edgeFactor "half-octave") = 782 := by
  apply searchsorted_freqBins_eval 44100 _ (by norm_num) 782 (by norm_num) (by norm_num)
  · rw [lt_div_ef_iff _ _ (rfreq_nonneg 44100 (by norm_num) _) (by norm_num)]
    unfold rfreq
    norm_num
  · rw [div_ef_le_iff _ _ (rfreq_nonneg 44100 (by norm_num) _) (by norm_num)]
    unfold rfreq
    norm_num

theorem ss_hi_10000 :
    searchsorted (freqBins 44100) (10000 * edgeFactor "half-octave") = 1105 := by
  apply searchsorted_freqBins_eval 44100 _ (by norm_num) 1105 (by norm_num) (by norm_num)
  · rw [lt_mul_ef_iff _ _ (rfreq_nonneg 44100 (by norm_num) _) (by norm_num)]
    unfold rfreq
    norm_num
  · rw [mul_ef_le_iff _ _ (rfreq_nonneg 44100 (by norm_num) _) (by norm_num)]
    unfold rfreq
    norm_num

theorem ss_lo_20 :
    searchsorted (freqBins 44100) (20 / edgeFactor "half-octave") = 2 := by
  apply searchsorted_freqBins_eval 44100 _ (by norm_num) 2 (by norm_num) (by norm_num)
  · rw [lt_div_ef_iff _ _ (rfreq_nonneg 44100 (by norm_num) _) (by norm_num)]
    unfold rfreq
    norm_num
  · rw [div_ef_le_iff _ _ (rfreq_nonneg 44100 (by norm_num) _) (by norm_num)]
    unfold rfreq
    norm_num

theorem ss_hi_20 :
    searchsorted (freqBins 44100) (20 * edgeFactor "half-octave") = 3 := by
  apply searchsorted_freqBins_eval 44100 _ (by norm_num) 3 (by norm_num) (by norm_num)
  · rw [lt_mul_ef_iff _ _ (rfreq_nonneg 44100 (by norm_num) _) (by norm_num)]
    unfold rfreq
    norm_num
  · rw [mul_ef_le_iff _ _ (rfreq_nonneg 44100 (by norm_num) _) (by norm_num)]
    unfold rfreq
    norm_num

theorem BAND_BINS_18 : BAND_BINS.getD 18 (0, 0) = (782, 1105) := by
  rw [BAND_BINS, SAMPLE_RATE, compute_band_bins_getD 44100 18 (by norm_num)]
  have hc : BAND_CENTERS.getD 18 0 = 10000 := by rfl
  rw [hc, ss_lo_10000, ss_hi_10000]
  rfl

theorem BAND_BINS_0 : BAND_BINS.getD 0 (0, 0) = (2, 3) := by
  rw [BAND_BINS, SAMPLE_RATE, compute_band_bins_getD 44100 0 (by norm_num)]
  have hc : BAND_CENTERS.getD 0 0 = 20 := by rfl
  rw [hc, ss_lo_20, ss_hi_20]
  rfl

/-! ### Trigonometric special values -/

theorem cos_nat_pi (n : ℕ) : Real.cos (n * Real.pi) = (-1) ^ n := by
  induction n with
  | zero => simp
  | succ n ih =>
    have h : ((n + 1 : ℕ) : ℝ) * Real.pi = n * Real.pi + Real.pi := by
      push_cast
      ring
    rw [h, Real.cos_add_pi, ih]
    ring

theorem sin_2047 : Real.sin (Real.pi * 2047 / 2) = -1 := by
  have h : Real.pi * 2047 / 2 = ((1023 : ℕ) : ℝ) * Real.pi + Real.pi / 2 := by
    push_cast
    ring
  rw [h, Real.sin_add_pi_div_two, cos_nat_pi]
  exact Odd.neg_one_pow (Nat.odd_iff.mpr rfl)

/-! ### The concrete sine chunk -/

theorem sineChunk_length (a : ℝ) : (sineChunk a).length = 4096 := by
  unfold sineChunk
  rw [List.length_ofFn]

theorem sineChunk_getD (a : ℝ) (j : ℕ) (hj : j < 4096) :
    (sineChunk a).getD j 0 = a * Real.sin (Real.pi * j / 2) := by
  unfold sineChunk
  rw [List.getD_eq_getElem _ _ (by rw [List.length_ofFn]; exact hj)]
  rw [List.getElem_ofFn]

theorem map_sineChunk (a b : ℝ) : (sineChunk b).map (fun t => a * t) = sineChunk (a * b) := by
  unfold sineChunk
  rw [List.map_ofFn]
  congr 1
  funext j
  show a * (b * Real.sin (Real.pi * j / 2)) = a * b * Real.sin (Real.pi * j / 2)
  ring

theorem single_le_sum_range (g : ℕ → ℝ) (n i : ℕ) (hi : i < n) (h0 : ∀ j, 0 ≤ g j) :
    g i ≤ ∑ j ∈ Finset.range n, g j :=
  Finset.single_le_sum (fun j _ => h0 j) (Finset.mem_range.mpr hi)

theorem single_le_sum_Ico (g : ℕ → ℝ) (lo hi i : ℕ) (h1 : lo ≤ i) (h2 : i < hi)
    (h0 : ∀ j, 0 ≤ g j) :
    g i ≤ ∑ j ∈ Finset.Ico lo hi, g j :=
  Finset.single_le_sum (fun j _ => h0 j) (Finset.mem_Ico.mpr ⟨h1, h2⟩)

theorem sumSq_sineChunk (a : ℝ) :
    sumSq (sineChunk a) = ∑ j ∈ Finset.range 4096, (a * Real.sin (Real.pi * j / 2)) ^ 2 := by
  unfold sineChunk sumSq
  rw [List.map_ofFn, List.sum_ofFn]
  rw [← Fin.sum_univ_eq_sum_range (fun j : ℕ => (a * Real.sin (Real.pi * j / 2)) ^ 2) 4096]
  rfl

theorem sumSq_sine_lower (a : ℝ) : a ^ 2 ≤ sumSq (sineChunk a) := by
  rw [sumSq_sineChunk]
  have hterm : (a * Real.sin (Real.pi * ((2047 : ℕ) : ℝ) / 2)) ^ 2 = a ^ 2 := by
    push_cast
    rw [sin_2047]
    ring
  calc a ^ 2 = (a * Real.sin (Real.pi * ((2047 : ℕ) : ℝ) / 2)) ^ 2 := hterm.symm
    _ ≤ ∑ j ∈ Finset.range 4096, (a * Real.sin (Real.pi * j / 2)) ^ 2 :=
        single_le_sum_range (fun j => (a * Real.sin (Real.pi * j / 2)) ^ 2) 4096 2047
          (by norm_num) (fun j => sq_nonneg _)

theorem rms_sine_not_silent (a : ℝ) (ha : 64 ≤ a) : ¬ rms (sineChunk a) < 1 := by
  unfold rms
  rw [sineChunk_length]
  have hS := sumSq_sine_lower a
  have h1 : (1 : ℝ) ≤ sumSq (sineChunk a) / 4096 := by nlinarith
  have hsq : (1 : ℝ) ≤ Real.sqrt (sumSq (sineChunk a) / 4096) := by
    rw [show (1 : ℝ) = Real.sqrt 1 by rw [Real.sqrt_one]]
    exact Real.sqrt_le_sqrt h1
  push_cast
  exact not_lt.mpr hsq

/-! ### Scaling lemmas for the volume-independent pipeline -/

theorem getD_map_mul (k : ℝ) (l : List ℝ) (j : ℕ) :
    (l.map (fun t => k * t)).getD j 0 = k * l.getD j 0 := by
  by_cases h : j < l.length
  · rw [List.getD_eq_getElem _ _ (by rw [List.length_map]; exact h),
      List.getD_eq_getElem _ _ h, List.getElem_map]
  · have h1 : l.length ≤ j := le_of_not_lt h
    rw [List.getD_eq_default _ _ (by rw [List.length_map]; exact h1),
      List.getD_eq_default _ _ h1, mul_zero]

theorem windowed_scale (k : ℝ) (r : List ℝ) (j : ℕ) :
    windowed (r.map (fun t => k * t)) j = k * windowed r j := by
  unfold windowed
  rw [getD_map_mul]
  ring

theorem rfft_scale (k : ℝ) (r : List ℝ) (kk : ℕ) :
    rfft (r.map (fun t => k * t)) kk = (k : ℂ) * rfft r kk := by
  unfold rfft
  rw [Finset.mul_sum]
  apply Finset.sum_congr rfl
  intro j _
  rw [windowed_scale]
  push_cast
  ring

theorem spectrum'_scale (k : ℝ) (r : List ℝ) (kk : ℕ) :
    spectrum' (r.map (fun t => k * t)) kk = k ^ 2 * spectrum' r kk := by
  unfold spectrum'
  rw [rfft_scale, map_mul Complex.abs, Complex.abs_ofReal, mul_pow, sq_abs]
  ring

theorem csum_scale (k : ℝ) (r : List ℝ) (m : ℕ) :
    csum (r.map (fun t => k * t)) m = k ^ 2 * csum r m := by
  unfold csum
  rw [Finset.mul_sum]
  exact Finset.sum_congr rfl (fun j _ => spectrum'_scale k r j)

theorem band_power_scale (k : ℝ) (bins : List (ℕ × ℕ)) (r : List ℝ) (b : ℕ) :
    band_power bins (r.map (fun t => k * t)) b = k ^ 2 * band_power bins r b := by
  unfold band_power
  rw [csum_scale, csum_scale, ← mul_sub]
  rw [mul_max_of_nonneg _ _ (sq_nonneg k), mul_zero]

theorem total_power_scale (k : ℝ) (bins : List (ℕ × ℕ)) (r : List ℝ) :
    total_power bins (r.map (fun t => k * t)) = k ^ 2 * total_power bins r := by
  unfold total_power
  rw [Finset.mul_sum]
  exact Finset.sum_congr rfl (fun b _ => band_power_scale k bins r b)

theorem band_db_scale (k : ℝ) (hk : 1 ≤ k) (bins : List (ℕ × ℕ)) (r : List ℝ) (b : ℕ)
    (ht : 1e-30 < total_power bins r) :
    band_db bins (r.map (fun t => k * t)) b = band_db bins r b := by
  have hk2 : 1 ≤ k ^ 2 := by nlinarith
  have ht2 : 1e-30 < total_power bins (r.map (fun t => k * t)) := by
    rw [total_power_scale]
    nlinarith [total_power_nonneg bins r]
  have hbpn : band_power_norm bins (r.map (fun t => k * t)) b = band_power_norm bins r b := by
    unfold band_power_norm
    rw [if_pos ht2, if_pos ht, total_power_scale, band_power_scale]
    rw [mul_div_mul_left _ _ (by nlinarith : (k : ℝ) ^ 2 ≠ 0)]
  unfold band_db
  rw [hbpn]

theorem rms_scale (k : ℝ) (hk : 0 ≤ k) (c : List ℝ) :
    rms (c.map (fun t => k * t)) = k * rms c := by
  unfold rms sumSq
  rw [List.length_map, List.map_map]
  have hmap : (c.map ((fun x => x ^ 2) ∘ fun t => k * t)).sum =
      k ^ 2 * (c.map (fun x => x ^ 2)).sum := by
    induction c with
    | nil => simp
    | cons x xs ih =>
      simp only [List.map_cons, List.sum_cons, ih]
      show (k * x) ^ 2 + _ = _
      ring
  rw [hmap, mul_div_assoc]
  rw [Real.sqrt_mul (sq_nonneg k)]
  rw [Real.sqrt_sq hk]

/-! ### Lower bound on the sine chunk's spectrum at bin 1024 -/

theorem rfft_sine_im (a : ℝ) :
    (rfft (sineChunk a) 1024).im =
      -(a / 32768) * ∑ j ∈ Finset.range 4096, hann j * Real.sin (Real.pi * j / 2) ^ 2 := by
  unfold rfft
  rw [Complex.im_sum, Finset.mul_sum]
  apply Finset.sum_congr rfl
  intro j hj
  have hj4096 := Finset.mem_range.mp hj
  have him : (((windowed (sineChunk a) j : ℝ) : ℂ) *
      Complex.exp (((-(2 * Real.pi * j * (1024 : ℕ) / 4096) : ℝ) : ℂ) * Complex.I)).im =
      windowed (sineChunk a) j * Real.sin (-(2 * Real.pi * j * (1024 : ℕ) / 4096)) := by
    rw [Complex.mul_im, Complex.ofReal_re, Complex.ofReal_im]
    rw [Complex.exp_ofReal_mul_I_im]
    ring
  rw [him]
  have harg : -(2 * Real.pi * (j : ℝ) * ((1024 : ℕ) : ℝ) / 4096) = -(Real.pi * (j : ℝ) / 2) := by
    push_cast
    ring
  rw [harg, Real.sin_neg]
  unfold windowed
  rw [sineChunk_getD a j hj4096]
  ring

theorem sine_T_lower :
    1 / 2 ≤ ∑ j ∈ Finset.range 4096, hann j * Real.sin (Real.pi * j / 2) ^ 2 := by
  have h2047 : (1 : ℝ) / 2 ≤ hann 2047 * Real.sin (Real.pi * ((2047 : ℕ) : ℝ) / 2) ^ 2 := by
    push_cast
    rw [sin_2047]
    have := hann_2047
    nlinarith
  calc (1 : ℝ) / 2 ≤ hann 2047 * Real.sin (Real.pi * ((2047 : ℕ) : ℝ) / 2) ^ 2 := h2047
    _ ≤ ∑ j ∈ Finset.range 4096, hann j * Real.sin (Real.pi * j / 2) ^ 2 :=
        single_le_sum_range (fun j => hann j * Real.sin (Real.pi * j / 2) ^ 2) 4096 2047
          (by norm_num) (fun j => mul_nonneg (hann_nonneg j) (sq_nonneg _))

theorem spectrum'_sine_1024 (a : ℝ) :
    (a / 32768) ^ 2 * (1 / 4) / 4096 ^ 2 ≤ spectrum' (sineChunk a) 1024 := by
  have him := rfft_sine_im a
  have hT := sine_T_lower
  have him2 : (a / 32768) ^ 2 * (1 / 4) ≤ (rfft (sineChunk a) 1024).im ^ 2 := by
    rw [him]
    nlinarith [sq_nonneg (a / 32768),
      sq_nonneg (∑ j ∈ Finset.range 4096, hann j * Real.sin (Real.pi * j / 2) ^ 2 - 1 / 2)]
  have habs : (rfft (sineChunk a) 1024).im ^ 2 ≤ Complex.abs (rfft (sineChunk a) 1024) ^ 2 := by
    have h1 := Complex.abs_im_le_abs (rfft (sineChunk a) 1024)
    nlinarith [abs_nonneg (rfft (sineChunk a) 1024).im, sq_abs (rfft (sineChunk a) 1024).im]
  unfold spectrum'
  have hwpc := one_le_wpc
  have h3 : (a / 32768) ^ 2 * (1 / 4) ≤
      Complex.abs (rfft (sineChunk a) 1024) ^ 2 * WINDOW_POWER_CORR := by
    nlinarith [sq_nonneg (Complex.abs (rfft (sineChunk a) 1024))]
  exact (div_le_div_right (by norm_num)).mpr h3

theorem total_sine_lower (a : ℝ) (ha : 64 ≤ a) :
    1e-30 < total_power BAND_BINS (sineChunk a) := by
  have hbp : spectrum' (sineChunk a) 1024 ≤ band_power BAND_BINS (sineChunk a) 18 := by
    unfold band_power
    rw [BAND_BINS_18]
    have hm2 : min ((782, 1105) : ℕ × ℕ).2 2049 = 1105 := by norm_num
    have hm1 : min ((782, 1105) : ℕ × ℕ).1 2049 = 782 := by norm_num
    rw [hm2, hm1]
    rw [csum_sub _ _ _ (by norm_num)]
    refine le_trans ?_ (le_max_left _ _)
    exact single_le_sum_Ico (spectrum' (sineChunk a)) 782 1105 1024 (by norm_num) (by norm_num)
      (spectrum'_nonneg _)
  have hs := spectrum'_sine_1024 a
  have htot := band_power_le_total BAND_BINS (sineChunk a) 18
    (by rw [BAND_BINS_length]; norm_num)
  have hlow : (64 / 32768 : ℝ) ^ 2 * (1 / 4) / 4096 ^ 2 ≤ (a / 32768) ^ 2 * (1 / 4) / 4096 ^ 2 := by
    nlinarith [ha, sq_nonneg (a - 64)]
  have hconst : (1e-30 : ℝ) < (64 / 32768 : ℝ) ^ 2 * (1 / 4) / 4096 ^ 2 := by norm_num
  linarith

/-! ### One-tick scaling relation and its iteration -/

theorem ring_update_long (r c : List ℝ) (h : 4096 ≤ c.length) :
    ring_update r c = c.drop (c.length - 4096) := by
  unfold ring_update
  rw [if_pos h]

theorem analyze_state_scale_step (k : ℝ) (hk : 1 ≤ k) (c : List ℝ) (hclen : 4096 ≤ c.length)
    (hns : ¬ rms c < 1)
    (ht : 1e-30 < total_power BAND_BINS (c.drop (c.length - 4096)))
    (s1 s2 : VizState) (hprev : s2.prev_db = s1.prev_db)
    (hring : s2.audio_ring = s1.audio_ring.map (fun t => k * t)) :
    (analyze_state s2 (c.map (fun t => k * t))).prev_db = (analyze_state s1 c).prev_db ∧
    (analyze_state s2 (c.map (fun t => k * t))).audio_ring =
      (analyze_state s1 c).audio_ring.map (fun t => k * t) := by
  have hns2 : ¬ rms (c.map (fun t => k * t)) < 1 := by
    rw [rms_scale k (by linarith) c]
    have h1 := not_lt.mp hns
    exact not_lt.mpr (by nlinarith)
  have hlen2 : (c.map (fun t => k * t)).length = c.length := by rw [List.length_map]
  have hru1 : ring_update s1.audio_ring c = c.drop (c.length - 4096) :=
    ring_update_long _ _ hclen
  have hru : ring_update s2.audio_ring (c.map (fun t => k * t)) =
      (ring_update s1.audio_ring c).map (fun t => k * t) := by
    rw [hru1, ring_update_long _ _ (by rw [hlen2]; exact hclen), hlen2]
    rw [List.map_drop]
  rw [analyze_state_loud s1 c hns, analyze_state_loud s2 _ hns2]
  dsimp only
  constructor
  · rw [hprev, hru]
    have hmap_eq : (List.range NUM_BANDS).map
        (band_db BAND_BINS ((ring_update s1.audio_ring c).map (fun t => k * t))) =
        (List.range NUM_BANDS).map (band_db BAND_BINS (ring_update s1.audio_ring c)) :=
      List.map_congr_left (fun b _ => band_db_scale k hk BAND_BINS _ b (by rw [hru1]; exact ht))
    rw [hmap_eq]
  · rw [hru]

theorem runChunk_scale (k : ℝ) (hk : 1 ≤ k) (c : List ℝ) (hclen : 4096 ≤ c.length)
    (hns : ¬ rms c < 1)
    (ht : 1e-30 < total_power BAND_BINS (c.drop (c.length - 4096))) :
    ∀ n : ℕ, (runChunk (c.map (fun t => k * t)) n).prev_db = (runChunk c n).prev_db ∧
      (runChunk (c.map (fun t => k * t)) n).audio_ring =
        (runChunk c n).audio_ring.map (fun t => k * t) := by
  intro n
  induction n with
  | zero =>
    refine ⟨rfl, ?_⟩
    show initState.audio_ring = initState.audio_ring.map (fun t => k * t)
    unfold initState
    dsimp only
    rw [List.map_replicate, mul_zero]
  | succ n ih =>
    exact analyze_state_scale_step k hk c hclen hns ht _ _ ih.1 ih.2

/-- C3 counterexample: a pair of sine chunks at frequency SAMPLE_RATE/4
with amplitudes 16384 < 32768, both far above the silence gate, produce
EQUAL peak levels after 10 ticks, so the peak for the louder sine is not
strictly greater: the volume-independent normalization cancels amplitude. -/
theorem C3_counterexample :
    (16384 : ℝ) < 32768 ∧
    ¬ rms (sineChunk 16384) < 1 ∧ ¬ rms (sineChunk 32768) < 1 ∧
    peakLevel (runChunk (sineChunk 32768) 10) = peakLevel (runChunk (sineChunk 16384) 10) ∧
    ¬ peakLevel (runChunk (sineChunk 16384) 10) < peakLevel (runChunk (sineChunk 32768) 10) := by
  have hmap : (sineChunk 16384).map (fun t => (2 : ℝ) * t) = sineChunk 32768 := by
    rw [map_sineChunk]
    norm_num
  have ht : 1e-30 < total_power BAND_BINS
      ((sineChunk 16384).drop ((sineChunk (16384 : ℝ)).length - 4096)) := by
    have h0 : (sineChunk (16384 : ℝ)).length - 4096 = 0 := by rw [sineChunk_length]
    rw [h0, List.drop_zero]
    exact total_sine_lower 16384 (by norm_num)
  have hscale := runChunk_scale 2 (by norm_num) (sineChunk 16384)
    (by simp [sineChunk_length]) (rms_sine_not_silent 16384 (by norm_num)) ht 10
  rw [hmap] at hscale
  have hpeak : peakLevel (runChunk (sineChunk 32768) 10) =
      peakLevel (runChunk (sineChunk 16384) 10) := by
    unfold peakLevel
    rw [hscale.1]
  exact ⟨by norm_num, rms_sine_not_silent 16384 (by norm_num),
    rms_sine_not_silent 32768 (by norm_num), hpeak, not_lt.mpr (le_of_eq hpeak)⟩

/-- C3 amended: because of the volume-independent normalization, scaling
the amplitude leaves every frame unchanged; for sine inputs of any fixed
shape fed for any number of ticks with amplitudes a1 ≤ a2, both above the
silence threshold and with the quieter run normalizing, the peak output
band level for a2 is EQUAL to the peak for a1 (not strictly greater). -/
theorem C3_amended_volume_independent (u : List ℝ) (a1 a2 : ℝ) (h1 : 0 < a1) (h12 : a1 ≤ a2)
    (hlen : 4096 ≤ u.length) (hns : ¬ rms (u.map (fun t => a1 * t)) < 1)
    (ht : 1e-30 < total_power BAND_BINS
      ((u.map (fun t => a1 * t)).drop (u.length - 4096))) (n : ℕ) :
    peakLevel (runChunk (u.map (fun t => a2 * t)) n) =
      peakLevel (runChunk (u.map (fun t => a1 * t)) n) ∧
    (runChunk (u.map (fun t => a2 * t)) n).prev_db =
      (runChunk (u.map (fun t => a1 * t)) n).prev_db := by
  have ha1 : a1 ≠ 0 := ne_of_gt h1
  have hk : 1 ≤ a2 / a1 := (one_le_div h1).mpr h12
  have hmap : u.map (fun t => a2 * t) =
      (u.map (fun t => a1 * t)).map (fun t => (a2 / a1) * t) := by
    rw [List.map_map]
    apply List.map_congr_left
    intro t _
    show a2 * t = (a2 / a1) * (a1 * t)
    rw [eq_comm]
    calc (a2 / a1) * (a1 * t) = (a2 / a1 * a1) * t := by ring
      _ = a2 * t := by rw [div_mul_cancel₀ a2 ha1]
  have hclen : 4096 ≤ (u.map (fun t => a1 * t)).length := by
    rw [List.length_map]
    exact hlen
  have ht' : 1e-30 < total_power BAND_BINS
      ((u.map (fun t => a1 * t)).drop ((u.map (fun t => a1 * t)).length - 4096)) := by
    rw [List.length_map]
    exact ht
  have hrun := runChunk_scale (a2 / a1) hk (u.map (fun t => a1 * t)) hclen hns ht' n
  rw [hmap]
  exact ⟨by unfold peakLevel; rw [hrun.1], hrun.1⟩

/-- Witness for the amended C3 at the concrete sine shape and amplitudes
16384 and 32768 over 10 ticks. -/
theorem C3_witness :
    peakLevel (runChunk ((sineChunk 1).map (fun t => (32768 : ℝ) * t)) 10) =
      peakLevel (runChunk ((sineChunk 1).map (fun t => (16384 : ℝ) * t)) 10) ∧
    (runChunk ((sineChunk 1).map (fun t => (32768 : ℝ) * t)) 10).prev_db =
      (runChunk ((sineChunk 1).map (fun t => (16384 : ℝ) * t)) 10).prev_db :=
  C3_amended_volume_independent (sineChunk 1) 16384 32768 (by norm_num) (by norm_num)
    (by simp [sineChunk_length])
    (by rw [map_sineChunk, mul_one]
        exact rms_sine_not_silent 16384 (by norm_num))
    (by rw [map_sineChunk, mul_one, sineChunk_length]
        show (1e-30 : ℝ) < total_power BAND_BINS ((sineChunk 16384).drop 0)
        rw [List.drop_zero]
        exact total_sine_lower 16384 (by norm_num)) 10

/-! ### Unit-circle algebra for the DFT kernels -/

theorem eangle_add (α β : ℝ) : eangle (α + β) = eangle α * eangle β := by
  unfold eangle
  rw [← Complex.exp_add]
  congr 1
  push_cast
  ring

theorem eangle_pow (θ : ℝ) (j : ℕ) : eangle θ ^ j = eangle (j * θ) := by
  unfold eangle
  rw [← Complex.exp_nat_mul]
  congr 1
  push_cast
  ring

theorem eangle_re (θ : ℝ) : (eangle θ).re = Real.cos θ := Complex.exp_ofReal_mul_I_re θ

theorem eangle_im (θ : ℝ) : (eangle θ).im = Real.sin θ := Complex.exp_ofReal_mul_I_im θ

theorem abs_eangle (θ : ℝ) : Complex.abs (eangle θ) = 1 := Complex.abs_exp_ofReal_mul_I θ

theorem cos_eangle (θ : ℝ) : ((Real.cos θ : ℝ) : ℂ) = (eangle θ + eangle (-θ)) / 2 := by
  have h : eangle θ + eangle (-θ) = 2 * ((Real.cos θ : ℝ) : ℂ) := by
    have he1 : eangle θ = Complex.cos θ + Complex.sin θ * Complex.I := by
      unfold eangle
      exact Complex.exp_mul_I _
    have he2 : eangle (-θ) = Complex.cos (-(θ : ℂ)) + Complex.sin (-(θ : ℂ)) * Complex.I := by
      unfold eangle
      rw [show ((-θ : ℝ) : ℂ) = -(θ : ℂ) by push_cast; ring]
      exact Complex.exp_mul_I _
    rw [he1, he2, Complex.cos_neg, Complex.sin_neg, ← Complex.ofReal_cos]
    ring
  rw [h]
  ring

theorem eangle_eq_one_iff (θ : ℝ) : eangle θ = 1 ↔ ∃ n : ℤ, θ = n * (2 * Real.pi) := by
  unfold eangle
  rw [Complex.exp_eq_one_iff]
  constructor
  · rintro ⟨n, hn⟩
    refine ⟨n, ?_⟩
    have h2 : ((θ : ℂ) - (n : ℂ) * (2 * Real.pi)) * Complex.I = 0 := by
      rw [sub_mul, hn]
      ring
    have h3 : ((θ : ℂ) - (n : ℂ) * (2 * Real.pi)) = 0 :=
      (mul_eq_zero.mp h2).resolve_right Complex.I_ne_zero
    have h4 : ((θ : ℂ)) = (n : ℂ) * (2 * Real.pi) := sub_eq_zero.mp h3
    have h5 : θ = (n : ℝ) * (2 * Real.pi) := by exact_mod_cast h4
    exact h5
  · rintro ⟨n, hn⟩
    refine ⟨n, ?_⟩
    rw [hn]
    push_cast
    ring

theorem abs_exp_I_sub_one (θ : ℝ) :
    Complex.abs (eangle θ - 1) = 2 * |Real.sin (θ / 2)| := by
  have h1 : Complex.abs (eangle θ - 1) ^ 2 = 2 - 2 * Real.cos θ := by
    rw [Complex.sq_abs, Complex.normSq_apply]
    rw [Complex.sub_re, Complex.sub_im, Complex.one_re, Complex.one_im, eangle_re, eangle_im]
    nlinarith [Real.sin_sq_add_cos_sq θ]
  have hc : Real.sin (θ / 2) ^ 2 = 1 / 2 - Real.cos θ / 2 := by
    have := Real.sin_sq_eq_half_sub (θ / 2)
    rw [show 2 * (θ / 2) = θ by ring] at this
    exact this
  have h2 : (2 * |Real.sin (θ / 2)|) ^ 2 = 2 - 2 * Real.cos θ := by
    rw [mul_pow, sq_abs]
    nlinarith [hc]
  have habs : 0 ≤ Complex.abs (eangle θ - 1) := Complex.abs.nonneg _
  have hrhs : 0 ≤ 2 * |Real.sin (θ / 2)| := by positivity
  have hsq : Complex.abs (eangle θ - 1) ^ 2 = (2 * |Real.sin (θ / 2)|) ^ 2 := by
    rw [h1, h2]
  have := (sq_eq_sq_iff_abs_eq_abs _ _).mp hsq
  rwa [abs_of_nonneg habs, abs_of_nonneg hrhs] at this

theorem abs_geom_sum_eangle (θ : ℝ) (hne : eangle θ ≠ 1) :
    Complex.abs (∑ j ∈ Finset.range 4096, eangle θ ^ j) =
      |Real.sin (2048 * θ)| / |Real.sin (θ / 2)| := by
  rw [geom_sum_eq hne]
  rw [map_div₀ Complex.abs]
  rw [eangle_pow]
  have h1 : ((4096 : ℕ) : ℝ) * θ = 4096 * θ := by push_cast; ring
  rw [h1, abs_exp_I_sub_one, abs_exp_I_sub_one]
  rw [show (4096 * θ) / 2 = 2048 * θ by ring]
  rw [mul_div_mul_left _ _ (two_ne_zero)]

/-! ### The DFT of a constant chunk -/

theorem dcChunk_getD (j : ℕ) (hj : j < 4096) : dcChunk.getD j 0 = 10000 := by
  unfold dcChunk
  rw [List.getD_eq_getElem _ _ (by rw [List.length_replicate]; exact hj)]
  exact List.getElem_replicate _ _

theorem rfft_dc (k : ℕ) :
    rfft dcChunk k = ((10000 / 32768 : ℝ) : ℂ) * hannDft k := by
  unfold rfft hannDft
  rw [Finset.mul_sum]
  apply Finset.sum_congr rfl
  intro j hj
  unfold windowed
  rw [dcChunk_getD j (Finset.mem_range.mp hj)]
  push_cast
  ring

theorem eangle_rho_ne_one (k : ℕ) (h1 : 1 ≤ k) (h2 : k ≤ 4095) :
    eangle (-(2 * Real.pi * k / 4096)) ≠ 1 := by
  intro hone
  rw [eangle_eq_one_iff] at hone
  obtain ⟨n, hn⟩ := hone
  have h2pi : (2 * Real.pi) ≠ 0 := by
    have := Real.pi_pos
    positivity
  have hmul : (-(k : ℝ)) * (2 * Real.pi) = ((4096 : ℝ) * n) * (2 * Real.pi) := by
    linear_combination 4096 * hn
  have h3 : (-(k : ℝ)) = 4096 * n := mul_right_cancel₀ h2pi hmul
  have h4 : (-(k : ℤ)) = 4096 * n := by exact_mod_cast h3
  omega

theorem eangle_rp_ne_one (k : ℕ) (h1 : 1 ≤ k) (h2 : k ≤ 4095) :
    eangle (2 * Real.pi / 4095 - 2 * Real.pi * k / 4096) ≠ 1 := by
  intro hone
  rw [eangle_eq_one_iff] at hone
  obtain ⟨n, hn⟩ := hone
  have h2pi : (2 * Real.pi) ≠ 0 := by
    have := Real.pi_pos
    positivity
  have hmul : ((4096 : ℝ) - 4095 * k) * (2 * Real.pi) =
      ((16773120 : ℝ) * n) * (2 * Real.pi) := by
    linear_combination 16773120 * hn
  have h3 : ((4096 : ℝ) - 4095 * k) = 16773120 * n := mul_right_cancel₀ h2pi hmul
  have h4 : ((4096 : ℤ) - 4095 * k) = 16773120 * n := by exact_mod_cast h3
  omega

theorem eangle_rm_ne_one (k : ℕ) (h1 : 1 ≤ k) (h2 : k ≤ 4095) :
    eangle (-(2 * Real.pi / 4095) - 2 * Real.pi * k / 4096) ≠ 1 := by
  intro hone
  rw [eangle_eq_one_iff] at hone
  obtain ⟨n, hn⟩ := hone
  have h2pi : (2 * Real.pi) ≠ 0 := by
    have := Real.pi_pos
    positivity
  have hmul : ((-4096 : ℝ) - 4095 * k) * (2 * Real.pi) =
      ((16773120 : ℝ) * n) * (2 * Real.pi) := by
    linear_combination 16773120 * hn
  have h3 : ((-4096 : ℝ) - 4095 * k) = 16773120 * n := mul_right_cancel₀ h2pi hmul
  have h4 : ((-4096 : ℤ) - 4095 * k) = 16773120 * n := by exact_mod_cast h3
  omega

theorem hannDft_eq (k : ℕ) (h1 : 1 ≤ k) (h2 : k ≤ 4095) :
    hannDft k = -(1 / 4 : ℂ) *
      ((∑ j ∈ Finset.range 4096, eangle (2 * Real.pi / 4095 - 2 * Real.pi * k / 4096) ^ j) +
       (∑ j ∈ Finset.range 4096, eangle (-(2 * Real.pi / 4095) - 2 * Real.pi * k / 4096) ^ j)) := by
  have hS0 : (∑ j ∈ Finset.range 4096, eangle (-(2 * Real.pi * k / 4096)) ^ j) = 0 := by
    rw [geom_sum_eq (eangle_rho_ne_one k h1 h2)]
    have hpow : eangle (-(2 * Real.pi * k / 4096)) ^ 4096 = 1 := by
      rw [eangle_pow, eangle_eq_one_iff]
      exact ⟨-k, by push_cast; ring⟩
    rw [hpow, sub_self, zero_div]
  have hsplit : hannDft k =
      (1 / 2 : ℂ) * (∑ j ∈ Finset.range 4096, eangle (-(2 * Real.pi * k / 4096)) ^ j)
      - (1 / 4 : ℂ) *
        ((∑ j ∈ Finset.range 4096, eangle (2 * Real.pi / 4095 - 2 * Real.pi * k / 4096) ^ j) +
         (∑ j ∈ Finset.range 4096, eangle (-(2 * Real.pi / 4095) - 2 * Real.pi * k / 4096) ^ j)) := by
    unfold hannDft
    rw [← Finset.sum_add_distrib, Finset.mul_sum, Finset.mul_sum, ← Finset.sum_sub_distrib]
    apply Finset.sum_congr rfl
    intro j _
    show (hann j : ℂ) * eangle (-(2 * Real.pi * j * k / 4096)) = _
    rw [eangle_pow, eangle_pow, eangle_pow]
    have ha1 : (j : ℝ) * (-(2 * Real.pi * k / 4096)) = -(2 * Real.pi * j * k / 4096) := by
      ring
    have ha2 : (j : ℝ) * (2 * Real.pi / 4095 - 2 * Real.pi * k / 4096) =
        (2 * Real.pi * j / 4095) + (-(2 * Real.pi * j * k / 4096)) := by
      ring
    have ha3 : (j : ℝ) * (-(2 * Real.pi / 4095) - 2 * Real.pi * k / 4096) =
        (-(2 * Real.pi * j / 4095)) + (-(2 * Real.pi * j * k / 4096)) := by
      ring
    rw [ha1, ha2, ha3, eangle_add, eangle_add]
    have hhann : (hann j : ℂ) = 1 / 2 -
        (eangle (2 * Real.pi * j / 4095) + eangle (-(2 * Real.pi * j / 4095))) / 4 := by
      unfold hann
      have hcast : ((0.5 - 0.5 * Real.cos (2 * Real.pi * j / 4095) : ℝ) : ℂ) =
          1 / 2 - 1 / 2 * ((Real.cos (2 * Real.pi * j / 4095) : ℝ) : ℂ) := by
        rw [show (0.5 : ℝ) = 1 / 2 by norm_num]
        push_cast
        ring
      rw [hcast, cos_eangle]
      ring
    rw [hhann]
    ring
  rw [hsplit, hS0]
  ring

/-! ### Elementary sine bounds -/

theorem sin_ub (x : ℝ) (h0 : 0 ≤ x) : Real.sin x ≤ x := by
  rcases eq_or_lt_of_le h0 with h | h
  · rw [← h]
    simp
  · exact le_of_lt (Real.sin_lt h)

theorem sin_lb_cube (x : ℝ) (h0 : 0 < x) (h1 : x ≤ 1) : x - x ^ 3 / 4 ≤ Real.sin x :=
  le_of_lt (Real.sin_gt_sub_cube h0 h1)

theorem sin_lb_frac (x : ℝ) (h0 : 0 < x) (h1 : x ≤ 1) (h2 : x ^ 2 ≤ 4 / 5) :
    4 / 5 * x ≤ Real.sin x := by
  have hc := sin_lb_cube x h0 h1
  nlinarith [mul_le_mul_of_nonneg_left h2 h0.le]

theorem div_le_div_denom (A b c : ℝ) (hA : 0 ≤ A) (hc : 0 < c) (hbc : c ≤ b) :
    A / b ≤ A / c := by
  have hb : 0 < b := lt_of_lt_of_le hc hbc
  rw [div_le_div_iff hb hc]
  nlinarith [mul_le_mul_of_nonneg_left hbc hA]

/-! ### Absolute values of the geometric-sum numerators and denominators -/

theorem sin_pi_4095_pos : 0 < Real.sin (Real.pi / 4095) := by
  apply Real.sin_pos_of_pos_of_lt_pi
  · positivity
  · nlinarith [Real.pi_pos]

theorem abs_neg_one_zpow (m : ℤ) : |(-1 : ℝ) ^ m| = 1 := by
  rcases Int.even_or_odd m with h | h
  · rw [h.neg_one_zpow, abs_one]
  · rw [h.neg_one_zpow, abs_neg, abs_one]

theorem abs_sin_num_p (k : ℕ) :
    |Real.sin (2048 * (2 * Real.pi / 4095 - 2 * Real.pi * k / 4096))| =
      Real.sin (Real.pi / 4095) := by
  have harg : 2048 * (2 * Real.pi / 4095 - 2 * Real.pi * (k : ℝ) / 4096) =
      Real.pi / 4095 + ((1 - k : ℤ) : ℝ) * Real.pi := by
    push_cast
    ring
  rw [harg, Real.sin_add_int_mul_pi, abs_mul, abs_neg_one_zpow, one_mul,
    abs_of_nonneg sin_pi_4095_pos.le]

theorem abs_sin_num_m (k : ℕ) :
    |Real.sin (2048 * (-(2 * Real.pi / 4095) - 2 * Real.pi * k / 4096))| =
      Real.sin (Real.pi / 4095) := by
  have harg : 2048 * (-(2 * Real.pi / 4095) - 2 * Real.pi * (k : ℝ) / 4096) =
      -(Real.pi / 4095) + ((-1 - k : ℤ) : ℝ) * Real.pi := by
    push_cast
    ring
  rw [harg, Real.sin_add_int_mul_pi, abs_mul, abs_neg_one_zpow, one_mul,
    Real.sin_neg, abs_neg, abs_of_nonneg sin_pi_4095_pos.le]

theorem abs_sin_den_p (k : ℕ) (hk2 : 2 ≤ k) (hk1104 : k ≤ 1104) :
    |Real.sin ((2 * Real.pi / 4095 - 2 * Real.pi * k / 4096) / 2)| =
      Real.sin (Real.pi * k / 4096 - Real.pi / 4095) := by
  have hk2' : (2 : ℝ) ≤ (k : ℝ) := by exact_mod_cast hk2
  have hk1104' : (k : ℝ) ≤ 1104 := by exact_mod_cast hk1104
  have hpi := Real.pi_pos
  have harg : (2 * Real.pi / 4095 - 2 * Real.pi * (k : ℝ) / 4096) / 2 =
      -(Real.pi * k / 4096 - Real.pi / 4095) := by
    ring
  rw [harg, Real.sin_neg, abs_neg, abs_of_nonneg]
  apply Real.sin_nonneg_of_nonneg_of_le_pi
  · nlinarith
  · nlinarith

theorem abs_sin_den_m (k : ℕ) (hk0 : 1 ≤ k) (hk1104 : k ≤ 1104) :
    |Real.sin ((-(2 * Real.pi / 4095) - 2 * Real.pi * k / 4096) / 2)| =
      Real.sin (Real.pi / 4095 + Real.pi * k / 4096) := by
  have hk0' : (1 : ℝ) ≤ (k : ℝ) := by exact_mod_cast hk0
  have hk1104' : (k : ℝ) ≤ 1104 := by exact_mod_cast hk1104
  have hpi := Real.pi_pos
  have harg : (-(2 * Real.pi / 4095) - 2 * Real.pi * (k : ℝ) / 4096) / 2 =
      -(Real.pi / 4095 + Real.pi * k / 4096) := by
    ring
  rw [harg, Real.sin_neg, abs_neg, abs_of_nonneg]
  apply Real.sin_nonneg_of_nonneg_of_le_pi
  · nlinarith
  · nlinarith

/-! ### Upper bounds on the two geometric sums making up hannDft -/

theorem abs_Sp_ub (k : ℕ) (hk2 : 2 ≤ k) (hk1104 : k ≤ 1104) :
    Complex.abs (∑ j ∈ Finset.range 4096,
        eangle (2 * Real.pi / 4095 - 2 * Real.pi * k / 4096) ^ j) ≤
      5 * 4096 / (4 * (4095 * (k : ℝ) - 4096)) := by
  rw [abs_geom_sum_eangle _ (eangle_rp_ne_one k (by omega) (by omega))]
  rw [abs_sin_num_p, abs_sin_den_p k hk2 hk1104]
  have hk2' : (2 : ℝ) ≤ (k : ℝ) := by exact_mod_cast hk2
  have hk1104' : (k : ℝ) ≤ 1104 := by exact_mod_cast hk1104
  have hpi := Real.pi_pos
  have hpiu := Real.pi_lt_315
  have hprod_ub : Real.pi * (k : ℝ) ≤ Real.pi * 1104 :=
    mul_le_mul_of_nonneg_left hk1104' hpi.le
  have hprod_lb : Real.pi * 2 ≤ Real.pi * (k : ℝ) :=
    mul_le_mul_of_nonneg_left hk2' hpi.le
  have hx_pos : 0 < Real.pi * (k : ℝ) / 4096 - Real.pi / 4095 := by nlinarith
  have hx_le : Real.pi * (k : ℝ) / 4096 - Real.pi / 4095 ≤ 17 / 20 := by nlinarith
  have hx_sq : (Real.pi * (k : ℝ) / 4096 - Real.pi / 4095) ^ 2 ≤ 4 / 5 := by
    nlinarith [mul_nonneg hx_pos.le
      (show (0 : ℝ) ≤ 17 / 20 - (Real.pi * (k : ℝ) / 4096 - Real.pi / 4095) by linarith)]
  have hsin_lb := sin_lb_frac _ hx_pos (by linarith) hx_sq
  have hsin_xpos : 0 < Real.sin (Real.pi * (k : ℝ) / 4096 - Real.pi / 4095) := by nlinarith
  have hnum_ub : Real.sin (Real.pi / 4095) ≤ Real.pi / 4095 := sin_ub _ (by positivity)
  have hden_pos : (0 : ℝ) < 4 * (4095 * (k : ℝ) - 4096) := by nlinarith
  rw [div_le_div_iff hsin_xpos hden_pos]
  nlinarith [mul_le_mul_of_nonneg_right hnum_ub hden_pos.le,
    mul_le_mul_of_nonneg_left hsin_lb (by norm_num : (0 : ℝ) ≤ 5 * 4096)]

theorem abs_Sm_ub (k : ℕ) (hk1 : 1 ≤ k) (hk1104 : k ≤ 1104) :
    Complex.abs (∑ j ∈ Finset.range 4096,
        eangle (-(2 * Real.pi / 4095) - 2 * Real.pi * k / 4096) ^ j) ≤
      5 * 4096 / (4 * (4095 * (k : ℝ) + 4096)) := by
  rw [abs_geom_sum_eangle _ (eangle_rm_ne_one k (by omega) (by omega))]
  rw [abs_sin_num_m, abs_sin_den_m k hk1 hk1104]
  have hk1' : (1 : ℝ) ≤ (k : ℝ) := by exact_mod_cast hk1
  have hk1104' : (k : ℝ) ≤ 1104 := by exact_mod_cast hk1104
  have hpi := Real.pi_pos
  have hpiu := Real.pi_lt_315
  have hprod_ub : Real.pi * (k : ℝ) ≤ Real.pi * 1104 :=
    mul_le_mul_of_nonneg_left hk1104' hpi.le
  have hprod_lb : Real.pi * 1 ≤ Real.pi * (k : ℝ) :=
    mul_le_mul_of_nonneg_left hk1' hpi.le
  have hy_pos : 0 < Real.pi / 4095 + Real.pi * (k : ℝ) / 4096 := by nlinarith
  have hy_le : Real.pi / 4095 + Real.pi * (k : ℝ) / 4096 ≤ 17 / 20 := by nlinarith
  have hy_sq : (Real.pi / 4095 + Real.pi * (k : ℝ) / 4096) ^ 2 ≤ 4 / 5 := by
    nlinarith [mul_nonneg hy_pos.le
      (show (0 : ℝ) ≤ 17 / 20 - (Real.pi / 4095 + Real.pi * (k : ℝ) / 4096) by linarith)]
  have hsin_lb := sin_lb_frac _ hy_pos (by linarith) hy_sq
  have hsin_ypos : 0 < Real.sin (Real.pi / 4095 + Real.pi * (k : ℝ) / 4096) := by nlinarith
  have hnum_ub : Real.sin (Real.pi / 4095) ≤ Real.pi / 4095 := sin_ub _ (by positivity)
  have hden_pos : (0 : ℝ) < 4 * (4095 * (k : ℝ) + 4096) := by nlinarith
  rw [div_le_div_iff hsin_ypos hden_pos]
  nlinarith [mul_le_mul_of_nonneg_right hnum_ub hden_pos.le,
    mul_le_mul_of_nonneg_left hsin_lb (by norm_num : (0 : ℝ) ≤ 5 * 4096)]

theorem hannDft_abs_ub (k : ℕ) (hk2 : 2 ≤ k) (hk1104 : k ≤ 1104) :
    Complex.abs (hannDft k) ≤ (9379 / 10000) / (k : ℝ) := by
  have hkpos : (0 : ℝ) < (k : ℝ) := by
    have : (2 : ℝ) ≤ (k : ℝ) := by exact_mod_cast hk2
    linarith
  have hk2' : (2 : ℝ) ≤ (k : ℝ) := by exact_mod_cast hk2
  have hkne : (k : ℝ) ≠ 0 := ne_of_gt hkpos
  have habs14 : Complex.abs (-(1 / 4 : ℂ)) = 1 / 4 := by
    rw [Complex.abs.map_neg, map_div₀, map_one, Complex.abs_ofNat]
  have h1 := abs_Sp_ub k hk2 hk1104
  have h2 := abs_Sm_ub k (by omega) hk1104
  have h1' : 5 * 4096 / (4 * (4095 * (k : ℝ) - 4096)) ≤ (5120 / 2047) / (k : ℝ) := by
    have heq : (5120 / 2047) / (k : ℝ) = 5 * 4096 / (4 * (2047 * (k : ℝ))) := by
      field_simp
      ring
    rw [heq]
    apply div_le_div_denom _ _ _ (by norm_num) (by positivity)
    nlinarith
  have h2' : 5 * 4096 / (4 * (4095 * (k : ℝ) + 4096)) ≤ (5120 / 4095) / (k : ℝ) := by
    have heq : (5120 / 4095) / (k : ℝ) = 5 * 4096 / (4 * (4095 * (k : ℝ))) := by
      field_simp
      ring
    rw [heq]
    apply div_le_div_denom _ _ _ (by norm_num) (by positivity)
    nlinarith
  rw [hannDft_eq k (by omega) (by omega), map_mul Complex.abs, habs14]
  have htri := Complex.abs.add_le
    (∑ j ∈ Finset.range 4096, eangle (2 * Real.pi / 4095 - 2 * Real.pi * k / 4096) ^ j)
    (∑ j ∈ Finset.range 4096, eangle (-(2 * Real.pi / 4095) - 2 * Real.pi * k / 4096) ^ j)
  have hsum : Complex.abs
      ((∑ j ∈ Finset.range 4096, eangle (2 * Real.pi / 4095 - 2 * Real.pi * k / 4096) ^ j) +
       (∑ j ∈ Finset.range 4096, eangle (-(2 * Real.pi / 4095) - 2 * Real.pi * k / 4096) ^ j)) ≤
      (5120 / 2047) / (k : ℝ) + (5120 / 4095) / (k : ℝ) := by
    linarith
  have hfinal : (1 / 4 : ℝ) * ((5120 / 2047) / (k : ℝ) + (5120 / 4095) / (k : ℝ)) ≤
      (9379 / 10000) / (k : ℝ) := by
    rw [div_add_div_same, ← mul_div_assoc, div_le_div_iff hkpos hkpos]
    nlinarith
  calc (1 / 4 : ℝ) * Complex.abs _ ≤
      (1 / 4 : ℝ) * ((5120 / 2047) / (k : ℝ) + (5120 / 4095) / (k : ℝ)) := by
        apply mul_le_mul_of_nonneg_left hsum (by norm_num)
    _ ≤ (9379 / 10000) / (k : ℝ) := hfinal

/-! ### Lower bound on the DC leakage into bin 2 -/

theorem pi_cube_ub : Real.pi ^ 3 ≤ 32 := by
  have h := Real.pi_lt_315
  have h0 := Real.pi_pos
  have hsq : Real.pi ^ 2 < 10 := by nlinarith
  nlinarith [hsq, mul_lt_mul_of_pos_left h (mul_pos h0 h0)]

theorem abs_Sp2_lb :
    (10004 / 10000 : ℝ) ≤ Complex.abs (∑ j ∈ Finset.range 4096,
      eangle (2 * Real.pi / 4095 - 2 * Real.pi * ((2 : ℕ) : ℝ) / 4096) ^ j) := by
  rw [abs_geom_sum_eangle _ (eangle_rp_ne_one 2 (by norm_num) (by norm_num))]
  rw [abs_sin_num_p 2, abs_sin_den_p 2 (by norm_num) (by norm_num)]
  have hc : ((2 : ℕ) : ℝ) = 2 := by norm_num
  rw [hc]
  have hpi := Real.pi_pos
  have hpiu := Real.pi_lt_315
  have hpil := Real.pi_gt_three
  have hpi3 := pi_cube_ub
  have hx_pos : 0 < Real.pi * 2 / 4096 - Real.pi / 4095 := by linarith
  have hx_lt_pi : Real.pi * 2 / 4096 - Real.pi / 4095 < Real.pi := by linarith
  have hsin_den_ub : Real.sin (Real.pi * 2 / 4096 - Real.pi / 4095) ≤
      Real.pi * 2 / 4096 - Real.pi / 4095 := sin_ub _ hx_pos.le
  have hsin_den_pos : 0 < Real.sin (Real.pi * 2 / 4096 - Real.pi / 4095) :=
    Real.sin_pos_of_pos_of_lt_pi hx_pos hx_lt_pi
  have hnum_lb : Real.pi / 4095 - (Real.pi / 4095) ^ 3 / 4 ≤ Real.sin (Real.pi / 4095) :=
    sin_lb_cube _ (by positivity) (by linarith)
  rw [le_div_iff hsin_den_pos]
  nlinarith [hsin_den_ub, hnum_lb, hsin_den_pos]

theorem abs_Sm2_ub :
    Complex.abs (∑ j ∈ Finset.range 4096,
      eangle (-(2 * Real.pi / 4095) - 2 * Real.pi * ((2 : ℕ) : ℝ) / 4096) ^ j) ≤
      3334 / 10000 := by
  rw [abs_geom_sum_eangle _ (eangle_rm_ne_one 2 (by norm_num) (by norm_num))]
  rw [abs_sin_num_m 2, abs_sin_den_m 2 (by norm_num) (by norm_num)]
  have hc : ((2 : ℕ) : ℝ) = 2 := by norm_num
  rw [hc]
  have hpi := Real.pi_pos
  have hpiu := Real.pi_lt_315
  have hpil := Real.pi_gt_three
  have hpi3 := pi_cube_ub
  have hy_pos : 0 < Real.pi / 4095 + Real.pi * 2 / 4096 := by linarith
  have hy_le : Real.pi / 4095 + Real.pi * 2 / 4096 ≤ 1 := by linarith
  have hsin_den_lb : Real.pi / 4095 + Real.pi * 2 / 4096 -
      (Real.pi / 4095 + Real.pi * 2 / 4096) ^ 3 / 4 ≤
      Real.sin (Real.pi / 4095 + Real.pi * 2 / 4096) := sin_lb_cube _ hy_pos hy_le
  have hsin_den_pos : 0 < Real.sin (Real.pi / 4095 + Real.pi * 2 / 4096) := by
    nlinarith [hsin_den_lb]
  have hnum_ub : Real.sin (Real.pi / 4095) ≤ Real.pi / 4095 := sin_ub _ (by positivity)
  rw [div_le_iff hsin_den_pos]
  nlinarith [hsin_den_lb, hnum_ub, sin_pi_4095_pos]

theorem abs_neg_quarter : Complex.abs (-(1 / 4 : ℂ)) = 1 / 4 := by
  rw [Complex.abs.map_neg, map_div₀, map_one, Complex.abs_ofNat]

theorem hannDft2_lb : (1 / 6 : ℝ) ≤ Complex.abs (hannDft 2) := by
  rw [hannDft_eq 2 (by norm_num) (by norm_num), map_mul Complex.abs, abs_neg_quarter]
  have h1 := abs_Sp2_lb
  have h2 := abs_Sm2_ub
  have hkey : Complex.abs (∑ j ∈ Finset.range 4096,
        eangle (2 * Real.pi / 4095 - 2 * Real.pi * ((2 : ℕ) : ℝ) / 4096) ^ j) ≤
      Complex.abs
        ((∑ j ∈ Finset.range 4096,
            eangle (2 * Real.pi / 4095 - 2 * Real.pi * ((2 : ℕ) : ℝ) / 4096) ^ j) +
         (∑ j ∈ Finset.range 4096,
            eangle (-(2 * Real.pi / 4095) - 2 * Real.pi * ((2 : ℕ) : ℝ) / 4096) ^ j)) +
      Complex.abs (∑ j ∈ Finset.range 4096,
        eangle (-(2 * Real.pi / 4095) - 2 * Real.pi * ((2 : ℕ) : ℝ) / 4096) ^ j) := by
    have h := Complex.abs.add_le
      ((∑ j ∈ Finset.range 4096,
          eangle (2 * Real.pi / 4095 - 2 * Real.pi * ((2 : ℕ) : ℝ) / 4096) ^ j) +
       (∑ j ∈ Finset.range 4096,
          eangle (-(2 * Real.pi / 4095) - 2 * Real.pi * ((2 : ℕ) : ℝ) / 4096) ^ j))
      (-(∑ j ∈ Finset.range 4096,
          eangle (-(2 * Real.pi / 4095) - 2 * Real.pi * ((2 : ℕ) : ℝ) / 4096) ^ j))
    rw [add_neg_cancel_right, Complex.abs.map_neg] at h
    exact h
  linarith

/-! ### The total spectral energy of the window leakage -/

theorem sum_inv_sq_le : ∑ k ∈ Finset.Ico (2 : ℕ) 1105, ((1 : ℝ) / (k : ℝ) ^ 2) ≤ 1 := by
  have hterm : ∀ k ∈ Finset.Ico (2 : ℕ) 1105,
      (1 : ℝ) / (k : ℝ) ^ 2 ≤ 1 / ((k : ℝ) - 1) - 1 / (k : ℝ) := by
    intro k hk
    obtain ⟨hk2, _⟩ := Finset.mem_Ico.mp hk
    have hk2' : (2 : ℝ) ≤ (k : ℝ) := by exact_mod_cast hk2
    have h0 : (0 : ℝ) < (k : ℝ) - 1 := by linarith
    have h0k : (0 : ℝ) < (k : ℝ) := by linarith
    rw [div_sub_div _ _ (ne_of_gt h0) (ne_of_gt h0k)]
    have hone : (1 : ℝ) * (k : ℝ) - ((k : ℝ) - 1) * 1 = 1 := by ring
    rw [hone]
    exact div_le_div_denom 1 _ _ (by norm_num) (by positivity) (by nlinarith)
  calc ∑ k ∈ Finset.Ico (2 : ℕ) 1105, ((1 : ℝ) / (k : ℝ) ^ 2)
      ≤ ∑ k ∈ Finset.Ico (2 : ℕ) 1105, (1 / ((k : ℝ) - 1) - 1 / (k : ℝ)) :=
        Finset.sum_le_sum hterm
    _ = ∑ i ∈ Finset.range 1103,
          ((fun j : ℕ => -(1 / ((j : ℝ) + 1))) (i + 1) -
           (fun j : ℕ => -(1 / ((j : ℝ) + 1))) i) := by
        rw [Finset.sum_Ico_eq_sum_range]
        apply Finset.sum_congr rfl
        intro i _
        push_cast
        ring
    _ = (-(1 / (((1103 : ℕ) : ℝ) + 1))) - (-(1 / (((0 : ℕ) : ℝ) + 1))) :=
        Finset.sum_range_sub (fun j : ℕ => -(1 / ((j : ℝ) + 1))) 1103
    _ ≤ 1 := by norm_num

theorem BAND_BINS_range (b : ℕ) (hb : b < 19) :
    2 ≤ (BAND_BINS.getD b (0, 0)).1 ∧
    (BAND_BINS.getD b (0, 0)).1 < (BAND_BINS.getD b (0, 0)).2 ∧
    (BAND_BINS.getD b (0, 0)).2 ≤ 1105 := by
  have hc := centers_facts _ (center_getD_mem b hb)
  have hef := ef_pos
  have h20 : (20 : ℝ) / edgeFactor "half-octave" ≤
      BAND_CENTERS.getD b 0 / edgeFactor "half-octave" :=
    (div_le_div_right hef).mpr hc.1
  have hup_lo : BAND_CENTERS.getD b 0 / edgeFactor "half-octave" ≤
      (10000 : ℝ) / edgeFactor "half-octave" :=
    (div_le_div_right hef).mpr hc.2
  have hup_hi : BAND_CENTERS.getD b 0 * edgeFactor "half-octave" ≤
      (10000 : ℝ) * edgeFactor "half-octave" :=
    mul_le_mul_of_nonneg_right hc.2 hef.le
  have hlo_lb : 2 ≤ searchsorted (freqBins 44100)
      (BAND_CENTERS.getD b 0 / edgeFactor "half-octave") := by
    rw [← ss_lo_20]
    exact searchsorted_mono_v _ _ _ h20
  have hlo_ub : searchsorted (freqBins 44100)
      (BAND_CENTERS.getD b 0 / edgeFactor "half-octave") ≤ 782 := by
    rw [← ss_lo_10000]
    exact searchsorted_mono_v _ _ _ hup_lo
  have hhi_ub : searchsorted (freqBins 44100)
      (BAND_CENTERS.getD b 0 * edgeFactor "half-octave") ≤ 1105 := by
    rw [← ss_hi_10000]
    exact searchsorted_mono_v _ _ _ hup_hi
  rw [BAND_BINS, SAMPLE_RATE, compute_band_bins_getD 44100 b hb]
  dsimp only
  exact ⟨hlo_lb, lt_of_lt_of_le (Nat.lt_succ_self _) (le_max_right _ _),
    max_le hhi_ub (by omega)⟩

theorem spectrum'_dc (k : ℕ) :
    spectrum' dcChunk k =
      (10000 / 32768 : ℝ) ^ 2 * WINDOW_POWER_CORR / 4096 ^ 2 *
        Complex.abs (hannDft k) ^ 2 := by
  unfold spectrum'
  rw [rfft_dc, map_mul Complex.abs, Complex.abs_ofReal,
    abs_of_nonneg (by norm_num : (0 : ℝ) ≤ 10000 / 32768)]
  ring

theorem band_power_le_window (r : List ℝ) (b : ℕ) (hb : b < 19) :
    band_power BAND_BINS r b ≤ ∑ k ∈ Finset.Ico (2 : ℕ) 1105, spectrum' r k := by
  obtain ⟨hlo2, hlohi, hhi⟩ := BAND_BINS_range b hb
  unfold band_power
  apply max_le _ (Finset.sum_nonneg fun k _ => spectrum'_nonneg r k)
  have hmin2 : min (BAND_BINS.getD b (0, 0)).2 2049 = (BAND_BINS.getD b (0, 0)).2 :=
    min_eq_left (by omega)
  have hmin1 : min (BAND_BINS.getD b (0, 0)).1 2049 = (BAND_BINS.getD b (0, 0)).1 :=
    min_eq_left (by omega)
  rw [hmin1, hmin2, csum_sub r _ _ (le_of_lt hlohi)]
  apply Finset.sum_le_sum_of_subset_of_nonneg (Finset.Ico_subset_Ico hlo2 hhi)
  intro i _ _
  exact spectrum'_nonneg r i

theorem total_power_le_19 (r : List ℝ) :
    total_power BAND_BINS r ≤ 19 * ∑ k ∈ Finset.Ico (2 : ℕ) 1105, spectrum' r k := by
  unfold total_power
  rw [BAND_BINS_length]
  calc ∑ b ∈ Finset.range 19, band_power BAND_BINS r b
      ≤ ∑ _b ∈ Finset.range 19, ∑ k ∈ Finset.Ico (2 : ℕ) 1105, spectrum' r k :=
        Finset.sum_le_sum (fun b hbm => band_power_le_window r b (Finset.mem_range.mp hbm))
    _ = 19 * ∑ k ∈ Finset.Ico (2 : ℕ) 1105, spectrum' r k := by
        rw [Finset.sum_const, Finset.card_range, nsmul_eq_mul]
        norm_num

theorem dc_window_sum_ub :
    ∑ k ∈ Finset.Ico (2 : ℕ) 1105, spectrum' dcChunk k ≤
      (10000 / 32768 : ℝ) ^ 2 * WINDOW_POWER_CORR / 4096 ^ 2 * (22 / 25) := by
  have hC : (0 : ℝ) ≤ (10000 / 32768 : ℝ) ^ 2 * WINDOW_POWER_CORR / 4096 ^ 2 :=
    div_nonneg (mul_nonneg (by positivity) wpc_pos.le) (by positivity)
  have hterm : ∀ k ∈ Finset.Ico (2 : ℕ) 1105, spectrum' dcChunk k ≤
      ((10000 / 32768 : ℝ) ^ 2 * WINDOW_POWER_CORR / 4096 ^ 2 * (22 / 25)) *
        (1 / (k : ℝ) ^ 2) := by
    intro k hk
    obtain ⟨hk2, hk1105⟩ := Finset.mem_Ico.mp hk
    have hk2' : (2 : ℝ) ≤ (k : ℝ) := by exact_mod_cast hk2
    have hkpos : (0 : ℝ) < (k : ℝ) := by linarith
    have habs := hannDft_abs_ub k hk2 (by omega)
    have hsq : Complex.abs (hannDft k) ^ 2 ≤ ((9379 / 10000) / (k : ℝ)) ^ 2 :=
      pow_le_pow_left (Complex.abs.nonneg _) habs 2
    have hsq' : Complex.abs (hannDft k) ^ 2 ≤ 22 / 25 * (1 / (k : ℝ) ^ 2) := by
      have h1 : ((9379 / 10000 : ℝ) / (k : ℝ)) ^ 2 =
          (9379 / 10000 : ℝ) ^ 2 * (1 / (k : ℝ) ^ 2) := by
        rw [div_pow]
        ring
      nlinarith [mul_nonneg
        (show (0 : ℝ) ≤ 22 / 25 - (9379 / 10000 : ℝ) ^ 2 by norm_num)
        (le_of_lt (show (0 : ℝ) < 1 / (k : ℝ) ^ 2 by positivity))]
    rw [spectrum'_dc]
    calc (10000 / 32768 : ℝ) ^ 2 * WINDOW_POWER_CORR / 4096 ^ 2 *
          Complex.abs (hannDft k) ^ 2
        ≤ (10000 / 32768 : ℝ) ^ 2 * WINDOW_POWER_CORR / 4096 ^ 2 *
          (22 / 25 * (1 / (k : ℝ) ^ 2)) := mul_le_mul_of_nonneg_left hsq' hC
      _ = ((10000 / 32768 : ℝ) ^ 2 * WINDOW_POWER_CORR / 4096 ^ 2 * (22 / 25)) *
          (1 / (k : ℝ) ^ 2) := by ring
  calc ∑ k ∈ Finset.Ico (2 : ℕ) 1105, spectrum' dcChunk k
      ≤ ∑ k ∈ Finset.Ico (2 : ℕ) 1105,
          ((10000 / 32768 : ℝ) ^ 2 * WINDOW_POWER_CORR / 4096 ^ 2 * (22 / 25)) *
            (1 / (k : ℝ) ^ 2) := Finset.sum_le_sum hterm
    _ = ((10000 / 32768 : ℝ) ^ 2 * WINDOW_POWER_CORR / 4096 ^ 2 * (22 / 25)) *
          ∑ k ∈ Finset.Ico (2 : ℕ) 1105, (1 / (k : ℝ) ^ 2) := by
        rw [Finset.mul_sum]
    _ ≤ ((10000 / 32768 : ℝ) ^ 2 * WINDOW_POWER_CORR / 4096 ^ 2 * (22 / 25)) * 1 := by
        apply mul_le_mul_of_nonneg_left sum_inv_sq_le
        nlinarith [hC]
    _ = (10000 / 32768 : ℝ) ^ 2 * WINDOW_POWER_CORR / 4096 ^ 2 * (22 / 25) := mul_one _

theorem band_power_dc_0 : band_power BAND_BINS dcChunk 0 = spectrum' dcChunk 2 := by
  have h32 : csum dcChunk 3 - csum dcChunk 2 = spectrum' dcChunk 2 := by
    unfold csum
    rw [Finset.sum_range_succ]
    ring
  unfold band_power
  rw [BAND_BINS_0]
  rw [show min (2, 3).2 2049 = 3 from rfl, show min (2, 3).1 2049 = 2 from rfl]
  rw [h32]
  exact max_eq_left (spectrum'_nonneg _ _)

theorem band_power_dc_0_lb :
    (10000 / 32768 : ℝ) ^ 2 * WINDOW_POWER_CORR / 4096 ^ 2 * (1 / 36) ≤
      band_power BAND_BINS dcChunk 0 := by
  have hC : (0 : ℝ) ≤ (10000 / 32768 : ℝ) ^ 2 * WINDOW_POWER_CORR / 4096 ^ 2 :=
    div_nonneg (mul_nonneg (by positivity) wpc_pos.le) (by positivity)
  rw [band_power_dc_0, spectrum'_dc]
  have h := hannDft2_lb
  have habs_sq : (1 / 36 : ℝ) ≤ Complex.abs (hannDft 2) ^ 2 := by
    nlinarith [Complex.abs.nonneg (hannDft 2)]
  exact mul_le_mul_of_nonneg_left habs_sq hC

theorem band_db_dc_0_lb : (-28 : ℝ) ≤ band_db BAND_BINS dcChunk 0 := by
  have hC_pos : (0 : ℝ) < (10000 / 32768 : ℝ) ^ 2 * WINDOW_POWER_CORR / 4096 ^ 2 :=
    div_pos (mul_pos (by positivity) wpc_pos) (by positivity)
  have hband0 := band_power_dc_0_lb
  have hband0_pos : 0 < band_power BAND_BINS dcChunk 0 := by nlinarith
  have h0lt19 : 0 < BAND_BINS.length := by
    rw [BAND_BINS_length]
    norm_num
  have htot_lb : (10000 / 32768 : ℝ) ^ 2 * WINDOW_POWER_CORR / 4096 ^ 2 * (1 / 36) ≤
      total_power BAND_BINS dcChunk :=
    le_trans hband0 (band_power_le_total BAND_BINS dcChunk 0 h0lt19)
  have htot_pos : 0 < total_power BAND_BINS dcChunk := by nlinarith
  have htot_ub : total_power BAND_BINS dcChunk ≤
      19 * ((10000 / 32768 : ℝ) ^ 2 * WINDOW_POWER_CORR / 4096 ^ 2 * (22 / 25)) :=
    le_trans (total_power_le_19 dcChunk)
      (mul_le_mul_of_nonneg_left dc_window_sum_ub (by norm_num))
  have h1e30 : (1e-30 : ℝ) < total_power BAND_BINS dcChunk := by
    have hwpc := one_le_wpc
    nlinarith
  have hratio_nonneg : 0 < band_power BAND_BINS dcChunk 0 / total_power BAND_BINS dcChunk :=
    div_pos hband0_pos htot_pos
  have hratio : (1 / 602 : ℝ) ≤
      band_power BAND_BINS dcChunk 0 / total_power BAND_BINS dcChunk := by
    rw [le_div_iff htot_pos]
    nlinarith
  have h602 : (10 : ℝ) ^ ((-14 / 5 : ℝ)) ≤ 1 / 602 := by
    have h5 : (602 : ℝ) ^ (5 : ℕ) ≤ ((10 : ℝ) ^ ((14 / 5 : ℝ))) ^ (5 : ℕ) := by
      rw [← Real.rpow_natCast ((10 : ℝ) ^ ((14 / 5 : ℝ))) 5, ← Real.rpow_mul (by norm_num)]
      rw [show (14 / 5 : ℝ) * ((5 : ℕ) : ℝ) = ((14 : ℕ) : ℝ) by norm_num]
      rw [Real.rpow_natCast]
      norm_num
    have h602le : (602 : ℝ) ≤ (10 : ℝ) ^ ((14 / 5 : ℝ)) :=
      le_of_pow_le_pow_left (by norm_num) (Real.rpow_nonneg (by norm_num) _) h5
    rw [show (-14 / 5 : ℝ) = -(14 / 5) by norm_num, Real.rpow_neg (by norm_num), ← one_div]
    exact one_div_le_one_div_of_le (by norm_num) h602le
  have hlog : (-14 / 5 : ℝ) ≤
      Real.logb 10 (band_power BAND_BINS dcChunk 0 / total_power BAND_BINS dcChunk) :=
    (Real.le_logb_iff_rpow_le (by norm_num) hratio_nonneg).mpr (le_trans h602 hratio)
  have hbpn : band_power_norm BAND_BINS dcChunk 0 =
      band_power BAND_BINS dcChunk 0 / total_power BAND_BINS dcChunk := by
    unfold band_power_norm
    rw [if_pos h1e30]
  unfold band_db
  rw [hbpn, if_pos hratio_nonneg]
  calc (-28 : ℝ) ≤ 10 * (-14 / 5 : ℝ) := by norm_num
    _ ≤ 10 * Real.logb 10
          (band_power BAND_BINS dcChunk 0 / total_power BAND_BINS dcChunk) := by
        linarith
    _ ≤ max (10 * Real.logb 10
          (band_power BAND_BINS dcChunk 0 / total_power BAND_BINS dcChunk)) NOISE_FLOOR :=
        le_max_left _ _

/-! ### Feeding the DC chunk repeatedly -/

theorem dcChunk_length : dcChunk.length = 4096 := by
  unfold dcChunk
  rw [List.length_replicate]

theorem rms_dc : rms dcChunk = 10000 := by
  unfold rms sumSq dcChunk
  rw [List.map_replicate, List.sum_replicate, List.length_replicate, nsmul_eq_mul]
  rw [show ((4096 : ℕ) : ℝ) * (10000 : ℝ) ^ 2 / ((4096 : ℕ) : ℝ) = 10000 ^ 2 by
    push_cast
    ring]
  exact Real.sqrt_sq (by norm_num)

theorem rms_dc_not_silent : ¬ rms dcChunk < 1 := by
  rw [rms_dc]
  norm_num

theorem ring_update_dc (r : List ℝ) : ring_update r dcChunk = dcChunk := by
  unfold ring_update
  rw [dcChunk_length, if_pos (le_refl 4096)]
  norm_num

theorem analyze_state_dc (s : VizState) :
    analyze_state s dcChunk =
      { prev_db := List.zipWith smooth s.prev_db
          ((List.range NUM_BANDS).map (band_db BAND_BINS dcChunk)),
        audio_ring := dcChunk } := by
  rw [analyze_state_loud s dcChunk rms_dc_not_silent, ring_update_dc]

theorem runChunk_dc_len (n : ℕ) : (runChunk dcChunk n).prev_db.length = 19 := by
  induction n with
  | zero => exact initState_prev_len
  | succ n ih =>
    show (analyze_state (runChunk dcChunk n) dcChunk).prev_db.length = 19
    rw [analyze_state_dc]
    dsimp only
    rw [List.length_zipWith, ih, List.length_map, List.length_range]
    rfl

theorem runChunk_dc_getD_succ (n : ℕ) :
    (runChunk dcChunk (n + 1)).prev_db.getD 0 0 =
      smooth ((runChunk dcChunk n).prev_db.getD 0 0) (band_db BAND_BINS dcChunk 0) := by
  show (analyze_state (runChunk dcChunk n) dcChunk).prev_db.getD 0 0 = _
  rw [analyze_state_dc]
  dsimp only
  rw [getD_zipWith smooth _ _ 0 (by rw [runChunk_dc_len]; norm_num)
    (by rw [List.length_map, List.length_range]; norm_num [NUM_BANDS])]
  rw [getD_band_list (band_db BAND_BINS dcChunk) 0 NUM_BANDS (by norm_num [NUM_BANDS])]

theorem smooth_dc_lb (p d : ℝ) (hp : -72 ≤ p) (hd : -28 ≤ d) : -46 ≤ smooth p d := by
  unfold smooth ATTACK_COEFF DECAY_COEFF
  split_ifs with h
  · nlinarith
  · nlinarith

theorem runChunk_dc_prev_bounds (n : ℕ) :
    ∀ v ∈ (runChunk dcChunk n).prev_db, NOISE_FLOOR ≤ v ∧ v ≤ 0 := by
  induction n with
  | zero => exact initState_prev_bounds
  | succ m ih => exact prev_bounds_step (runChunk dcChunk m) dcChunk ih

theorem runChunk_dc_getD_ge_floor (n : ℕ) :
    NOISE_FLOOR ≤ (runChunk dcChunk n).prev_db.getD 0 0 ∧
      (runChunk dcChunk n).prev_db.getD 0 0 ≤ 0 := by
  have hmem : (runChunk dcChunk n).prev_db.getD 0 0 ∈ (runChunk dcChunk n).prev_db := by
    have hlen : 0 < (runChunk dcChunk n).prev_db.length := by
      rw [runChunk_dc_len]
      norm_num
    rw [List.getD_eq_getElem _ _ hlen]
    exact List.getElem_mem _
  exact runChunk_dc_prev_bounds n _ hmem

theorem runChunk_dc_band0_lb (n : ℕ) :
    (-46 : ℝ) ≤ (runChunk dcChunk (n + 1)).prev_db.getD 0 0 := by
  rw [runChunk_dc_getD_succ]
  have hp := (runChunk_dc_getD_ge_floor n).1
  rw [NOISE_FLOOR] at hp
  exact smooth_dc_lb _ _ hp band_db_dc_0_lb

/-- C9: the claim that a large-DC, negligible-AC chunk keeps the lowest band
at or below roughly NOISE_FLOOR + 20 = -52 dB is false of the code: the code
never subtracts the DC offset before the FFT, so for the pure-DC chunk of
4096 samples all equal to 10000 (RMS 10000, well above the silence gate) the
Hann-window leakage into FFT bins 2..3 keeps the normalized power of band 0
at least 1/602 of the total, i.e. at least -28 dB raw, and the smoothed
output of band 0 stays at or above -46 dB from the first tick on — here
after 10 consecutive such chunks. -/
theorem C9_dc_not_rejected :
    1 ≤ rms dcChunk ∧
    (-46 : ℝ) ≤ (runChunk dcChunk 10).prev_db.getD 0 0 ∧
    ¬ (runChunk dcChunk 10).prev_db.getD 0 0 ≤ NOISE_FLOOR + 20 := by
  have h := runChunk_dc_band0_lb 9
  have h10 : (9 : ℕ) + 1 = 10 := by norm_num
  rw [h10] at h
  refine ⟨by rw [rms_dc]; norm_num, h, ?_⟩
  rw [NOISE_FLOOR]
  intro hcontra
  linarith
